import Mathlib

/-!
Verification development for the lightning-local-search core: the query
parser (`src/indexer/query-parser.ts`), the search coordinator over the
Orama index engine (`src/indexer/orama-index.ts`), the incremental sync
pipeline (`src/indexer/incremental-sync.ts`), and the cache manager
(`src/storage/cache-manager.ts`, `src/storage/index-store.ts`).

Strings are modelled as Lean `String` over their character lists (the
sources only manipulate ASCII-significant content).  Each JavaScript
global-regex replace pass of the parser is modelled by a left-to-right
scanner with the same leftmost, non-overlapping match semantics; the
character classes of the regexes are translated literally.  Timestamps
are epoch milliseconds (`Int`); `Date` parsing and `setHours` are
modelled at UTC.
-/

/-- Lower-case a string character-wise (models JS `toLowerCase` on the
ASCII content the sources handle). -/
def strLower (s : String) : String := String.mk (s.toList.map Char.toLower)

/-- Drop leading and trailing whitespace (models JS `trim`). -/
def trimWs (cs : List Char) : List Char :=
  ((cs.dropWhile Char.isWhitespace).reverse.dropWhile Char.isWhitespace).reverse

/-- JS `String.prototype.trim`. -/
def jsTrim (s : String) : String := String.mk (trimWs s.toList)

/-- The maximal nonempty whitespace-free runs of a character list: the
nonempty tokens JS `split` on a whitespace run yields. -/
def splitWsAux : List Char → List Char → List (List Char)
  | [], acc => if acc.isEmpty then [] else [acc.reverse]
  | c :: cs, acc =>
    if c.isWhitespace then
      if acc.isEmpty then splitWsAux cs [] else acc.reverse :: splitWsAux cs []
    else splitWsAux cs (c :: acc)

/-- The nonempty tokens of a whitespace split (JS `split` over a
one-or-more-whitespace pattern, with empty tokens dropped). -/
def splitWsStr (s : String) : List String := (splitWsAux s.toList []).map String.mk

/-- Models JS `String.prototype.startsWith`. -/
def strStartsWith (s pre : String) : Bool := pre.toList.isPrefixOf s.toList

/-- Whether `needle` occurs contiguously in `hay`. -/
def listInfix [DecidableEq α] : List α → List α → Bool
  | hay, needle =>
    if needle.isPrefixOf hay then true
    else match hay with
      | [] => false
      | _ :: t => listInfix t needle

/-- Substring containment, models JS `String.prototype.includes`. -/
def strIncludes (hay needle : String) : Bool :=
  listInfix hay.toList needle.toList

/-- Association-list lookup of the first entry with the given key: models
`Map.prototype.get` (a JS `Map` holds at most one entry per key). -/
def alGet [DecidableEq κ] : List (κ × α) → κ → Option α
  | [], _ => none
  | (k, v) :: r, p => if k = p then some v else alGet r p

/-- Association-list update-or-append: models `Map.prototype.set` (update
in place, insertion order preserved, append when the key is new). -/
def alSet [DecidableEq κ] : List (κ × α) → κ → α → List (κ × α)
  | [], p, v => [(p, v)]
  | (k, w) :: r, p, v => if k = p then (k, v) :: r else (k, w) :: alSet r p v

/-- Association-list removal of the entry with the given key: models
`Map.prototype.delete`. -/
def alDel [DecidableEq κ] : List (κ × α) → κ → List (κ × α)
  | [], _ => []
  | (k, w) :: r, p => if k = p then r else (k, w) :: alDel r p

/-- Reserved prefixes that the generic `key:value` frontmatter catch-all
must not consume (`RESERVED_PREFIXES` in `src/constants.ts`). -/
def RESERVED_PREFIXES : List String :=
  ["path", "folder", "created", "modified", "title", "heading",
   "file", "tag", "line", "section"]

/-- Debounce delays (`DEBOUNCE_MS` in `src/constants.ts`). -/
structure DebounceMs where
  fileChange : Nat
  search : Nat

def DEBOUNCE_MS : DebounceMs := { fileChange := 2000, search := 300 }

/-- Snapshot schema version (`INDEX_SCHEMA_VERSION` in `src/constants.ts`). -/
def INDEX_SCHEMA_VERSION : Nat := 2

inductive DateField where
  | created
  | modified
deriving DecidableEq, Repr

inductive DateOp where
  | before
  | after
  | on
deriving DecidableEq, Repr

structure DateFilter where
  field : DateField
  operator : DateOp
  date : String
deriving DecidableEq, Repr

/-- The structured query produced by `parseQuery` (`ParsedQuery` in
`src/types.ts`); `frontmatter` keeps the JS object's insertion order. -/
structure ParsedQuery where
  text : String
  phrases : List String
  tags : List String
  excludedTags : List String
  excludedTerms : List String
  paths : List String
  fileTerms : List String
  headingTerms : List String
  lineQueries : List (List String)
  sectionQueries : List (List String)
  frontmatter : List (String × String)
  dateFilters : List DateFilter
  useSemantic : Bool
deriving DecidableEq, Repr

/-- Character class of dash, slash, underscore and alphanumerics of the tag regexes. -/
def isTagChar (c : Char) : Bool :=
  c.isAlphanum || c = '_' || c = '-' || c = '/'

/-- Character class of dash, underscore and alphanumerics of the negated-term regex. -/
def isWordChar (c : Char) : Bool :=
  c.isAlphanum || c = '_' || c = '-'

/-- Character class `[a-zA-Z_]` starting a generic frontmatter key. -/
def isIdentStart (c : Char) : Bool := c.isAlpha || c = '_'

/-- Character class `[a-zA-Z0-9_]` continuing a generic frontmatter key. -/
def isIdentChar (c : Char) : Bool := c.isAlphanum || c = '_'

/-- Split a character list at the first character failing `p`. -/
def takeSpan (p : Char → Bool) (cs : List Char) : List Char × List Char :=
  (cs.takeWhile p, cs.dropWhile p)

/-- Strip a literal pattern, comparing characters case-insensitively
(models the `i` flag of the prefix regexes). -/
def stripLitCI : List Char → List Char → Option (List Char)
  | [], cs => some cs
  | _ :: _, [] => none
  | p :: ps, c :: cs => if c.toLower = p.toLower then stripLitCI ps cs else none

/-- Strip a literal pattern, comparing characters exactly (the date
regexes have no `i` flag). -/
def stripLit : List Char → List Char → Option (List Char)
  | [], cs => some cs
  | _ :: _, [] => none
  | p :: ps, c :: cs => if c = p then stripLit ps cs else none

/-- Generic driver for one global regex-replace pass: at each position try
`step`; on a match drop the matched text, record the capture and resume
after it, otherwise keep one character and advance.  `fuel` is the input
length; every match consumes at least one character. -/
def scanPass (step : List Char → Option (κ × List Char)) :
    Nat → List Char → List Char × List κ
  | 0, cs => (cs, [])
  | _ + 1, [] => ([], [])
  | fuel + 1, c :: cs =>
    match step (c :: cs) with
    | some (cap, rest) =>
      let r := scanPass step fuel rest
      (r.1, cap :: r.2)
    | none =>
      let r := scanPass step fuel cs
      (c :: r.1, r.2)

/-- Match `"([^"]+)"` at the head of the input. -/
def phraseStep : List Char → Option (String × List Char)
  | '"' :: rest =>
    let s := takeSpan (· ≠ '"') rest
    match s.2 with
    | '"' :: rest2 => if s.1.isEmpty then none else some (String.mk s.1, rest2)
    | _ => none
  | _ => none

/-- Match a negated tag: a dash, a hash, then one or more tag characters at the head of the input. -/
def negTagStep : List Char → Option (String × List Char)
  | '-' :: '#' :: rest =>
    let s := takeSpan isTagChar rest
    if s.1.isEmpty then none else some (String.mk s.1, s.2)
  | _ => none

/-- Match a tag: a hash then one or more tag characters at the head of the input. -/
def tagStep : List Char → Option (String × List Char)
  | '#' :: rest =>
    let s := takeSpan isTagChar rest
    if s.1.isEmpty then none else some (String.mk s.1, s.2)
  | _ => none

/-- Match `lit(([^)]+))` (case-insensitive literal, parenthesised group)
at the head of the input, e.g. `line:(foo bar)`. -/
def groupStep (lit : List Char) (cs : List Char) : Option (String × List Char) :=
  match stripLitCI lit cs with
  | some rest =>
    let s := takeSpan (· ≠ ')') rest
    match s.2 with
    | ')' :: rest2 => if s.1.isEmpty then none else some (String.mk s.1, rest2)
    | _ => none
  | none => none

/-- Match `lit([^\s]+)` (case-insensitive literal followed by a nonempty
nonspace run) at the head of the input, e.g. `path:some/folder`. -/
def singleStep (lit : List Char) (cs : List Char) : Option (String × List Char) :=
  match stripLitCI lit cs with
  | some rest =>
    let s := takeSpan (fun c => !c.isWhitespace) rest
    if s.1.isEmpty then none else some (String.mk s.1, s.2)
  | none => none

/-- Take exactly `n` digits. -/
def takeDigits : Nat → List Char → Option (List Char × List Char)
  | 0, cs => some ([], cs)
  | n + 1, c :: cs =>
    if c.isDigit then
      match takeDigits n cs with
      | some (ds, rest) => some (c :: ds, rest)
      | none => none
    else none
  | _ + 1, [] => none

/-- Match `lit([<>]?)(\d{4}-\d{2}-\d{2})` (case-sensitive) at the head of
the input, e.g. `created:>2024-01-01`; captures operator and date. -/
def dateStep (lit : List Char) (cs : List Char) : Option ((String × String) × List Char) :=
  match stripLit lit cs with
  | some rest =>
    let opRest : String × List Char :=
      match rest with
      | '>' :: r => (">", r)
      | '<' :: r => ("<", r)
      | _ => ("", rest)
    match takeDigits 4 opRest.2 with
    | some (y, r1) =>
      match r1 with
      | '-' :: r2 =>
        match takeDigits 2 r2 with
        | some (m, r3) =>
          match r3 with
          | '-' :: r4 =>
            match takeDigits 2 r4 with
            | some (d, r5) =>
              some ((opRest.1, String.mk y ++ "-" ++ String.mk m ++ "-" ++ String.mk d), r5)
            | none => none
          | _ => none
        | none => none
      | _ => none
    | none => none
  | none => none

/-- Match `\[([^\]]+)\]:?(\S*)` at the head of the input, e.g.
`[status]:draft` or `[status]`; captures key and (possibly empty) value. -/
def bracketStep : List Char → Option ((String × String) × List Char)
  | '[' :: rest =>
    let s := takeSpan (· ≠ ']') rest
    match s.2 with
    | ']' :: rest2 =>
      if s.1.isEmpty then none
      else
        let rest3 := match rest2 with
          | ':' :: r => r
          | _ => rest2
        let v := takeSpan (fun c => !c.isWhitespace) rest3
        some ((String.mk s.1, String.mk v.1), v.2)
    | _ => none
  | _ => none

/-- One pass of `([a-zA-Z_][a-zA-Z0-9_]*):([^\s]+)`: a reserved key keeps
its matched text in place (the JS callback returns the match) and the
scan resumes after it; any other key is recorded and removed. -/
def genericKVAux : Nat → List Char → List Char × List (String × String)
  | 0, cs => (cs, [])
  | _ + 1, [] => ([], [])
  | fuel + 1, c :: cs =>
    if isIdentStart c then
      let idSpan := takeSpan isIdentChar cs
      match idSpan.2 with
      | ':' :: rest2 =>
        let v := takeSpan (fun ch => !ch.isWhitespace) rest2
        if v.1.isEmpty then
          let r := genericKVAux fuel cs
          (c :: r.1, r.2)
        else
          let key := String.mk (c :: idSpan.1)
          if RESERVED_PREFIXES.contains (strLower key) then
            let r := genericKVAux fuel v.2
            (c :: idSpan.1 ++ ':' :: v.1 ++ r.1, r.2)
          else
            let r := genericKVAux fuel v.2
            (r.1, (key, String.mk v.1) :: r.2)
      | _ =>
        let r := genericKVAux fuel cs
        (c :: r.1, r.2)
    else
      let r := genericKVAux fuel cs
      (c :: r.1, r.2)

/-- One pass of a negated bare term: start of text or a whitespace character, a dash, then one or more word characters; the leading whitespace
character (when present) is part of the match and removed with it. -/
def negTermsAux : Nat → Bool → List Char → List Char × List String
  | 0, _, cs => (cs, [])
  | _ + 1, _, [] => ([], [])
  | fuel + 1, atStart, c :: cs =>
    if atStart && c = '-' then
      let s := takeSpan isWordChar cs
      if s.1.isEmpty then
        let r := negTermsAux fuel false cs
        (c :: r.1, r.2)
      else
        let r := negTermsAux fuel false s.2
        (r.1, String.mk s.1 :: r.2)
    else if c.isWhitespace then
      match cs with
      | '-' :: rest =>
        let s := takeSpan isWordChar rest
        if s.1.isEmpty then
          let r := negTermsAux fuel false cs
          (c :: r.1, r.2)
        else
          let r := negTermsAux fuel false s.2
          (r.1, String.mk s.1 :: r.2)
      | _ =>
        let r := negTermsAux fuel false cs
        (c :: r.1, r.2)
    else
      let r := negTermsAux fuel false cs
      (c :: r.1, r.2)

/-- Collapse every whitespace run to a single space (JS
`replace(/\s+/g, " ")`). -/
def collapseWs : List Char → List Char
  | [] => []
  | [c] => if c.isWhitespace then [' '] else [c]
  | c :: d :: cs =>
    if c.isWhitespace && d.isWhitespace then collapseWs (d :: cs)
    else (if c.isWhitespace then ' ' else c) :: collapseWs (d :: cs)

/-- Split an inner group such as `foo bar` into its nonempty terms
(JS `content.trim().split(/\s+/).filter(t => t.length > 0)`). -/
def groupTerms (s : String) : List String :=
  (splitWsStr s).filter (fun t => t.length > 0)

/-- Map the optional comparison character of a date filter
(`opToOperator` in `src/indexer/query-parser.ts`). -/
def opToOperator (op : String) : DateOp :=
  if op = ">" then .after else if op = "<" then .before else .on

/-- The query parser (`parseQuery` in `src/indexer/query-parser.ts`): a
fixed ordered sequence of pattern-match-and-remove passes over the
residual text, ending with whitespace collapsing. -/
def parseQuery (raw : String) : ParsedQuery :=
  let t0 := raw.toList
  let p1 := scanPass phraseStep t0.length t0
  let p2 := scanPass negTagStep p1.1.length p1.1
  let p3 := scanPass tagStep p2.1.length p2.1
  let p4 := scanPass (groupStep "line:(".toList) p3.1.length p3.1
  let p5 := scanPass (singleStep "line:".toList) p4.1.length p4.1
  let p6 := scanPass (groupStep "section:(".toList) p5.1.length p5.1
  let p7 := scanPass (singleStep "section:".toList) p6.1.length p6.1
  let p8 := scanPass (singleStep "path:".toList) p7.1.length p7.1
  let p9 := scanPass (singleStep "folder:".toList) p8.1.length p8.1
  let p10 := scanPass (singleStep "file:".toList) p9.1.length p9.1
  let p11 := scanPass (singleStep "title:".toList) p10.1.length p10.1
  let p12 := scanPass (singleStep "tag:".toList) p11.1.length p11.1
  let p13 := scanPass (singleStep "heading:".toList) p12.1.length p12.1
  let p14 := scanPass (dateStep "created:".toList) p13.1.length p13.1
  let p15 := scanPass (dateStep "modified:".toList) p14.1.length p14.1
  let p16 := scanPass bracketStep p15.1.length p15.1
  let p17 := genericKVAux p16.1.length p16.1
  let p18 := negTermsAux p17.1.length true p17.1
  let prefixTags := (p12.2.map fun term =>
    if strStartsWith term "#" then String.mk (term.toList.drop 1) else term).filter
    (fun t => t.length > 0)
  { text := jsTrim (String.mk (collapseWs p18.1))
    phrases := p1.2
    tags := p3.2 ++ prefixTags
    excludedTags := p2.2
    excludedTerms := p18.2
    paths := p8.2 ++ p9.2
    fileTerms := p10.2 ++ p11.2
    headingTerms := p13.2
    lineQueries := (p4.2.map groupTerms).filter (fun g => g ≠ []) ++ p5.2.map (fun t => [t])
    sectionQueries := (p6.2.map groupTerms).filter (fun g => g ≠ []) ++ p7.2.map (fun t => [t])
    frontmatter := (p16.2 ++ p17.2).foldl (fun acc kv => alSet acc kv.1 kv.2) []
    dateFilters :=
      p14.2.map (fun od => { field := .created, operator := opToOperator od.1, date := od.2 }) ++
      p15.2.map (fun od => { field := .modified, operator := opToOperator od.1, date := od.2 })
    useSemantic := false }

/-- Gregorian leap year. -/
def isLeapYear (y : Nat) : Bool := (y % 4 = 0 && y % 100 ≠ 0) || y % 400 = 0

/-- Days in a month. -/
def daysInMonth (y m : Nat) : Nat :=
  if m = 2 then (if isLeapYear y then 29 else 28)
  else if m = 4 || m = 6 || m = 9 || m = 11 then 30
  else 31

/-- Days since 1970-01-01 of a civil date (standard civil-calendar
conversion). -/
def daysFromCivil (y : Nat) (m d : Nat) : Int :=
  let yAdj : Int := (y : Int) - (if m ≤ 2 then 1 else 0)
  let era : Int := Int.fdiv yAdj 400
  let yoe : Nat := (yAdj - era * 400).toNat
  let mp : Nat := if m > 2 then m - 3 else m + 9
  let doy : Nat := (153 * mp + 2) / 5 + d - 1
  let doe : Nat := yoe * 365 + yoe / 4 - yoe / 100 + doy
  era * 146097 + (doe : Int) - 719468

/-- Epoch milliseconds of a `YYYY-MM-DD` string: models
`new Date(s).getTime()` at UTC; `none` models an invalid date (`NaN`). -/
def newDateMillis (s : String) : Option Int :=
  match s.toList with
  | [y1, y2, y3, y4, '-', m1, m2, '-', d1, d2] =>
    if (y1.isDigit && y2.isDigit && y3.isDigit && y4.isDigit &&
        m1.isDigit && m2.isDigit && d1.isDigit && d2.isDigit) then
      let dv : Char → Nat := fun c => c.toNat - '0'.toNat
      let y := 1000 * dv y1 + 100 * dv y2 + 10 * dv y3 + dv y4
      let m := 10 * dv m1 + dv m2
      let d := 10 * dv d1 + dv d2
      if 1 ≤ m && m ≤ 12 && 1 ≤ d && d ≤ daysInMonth y m then
        some (daysFromCivil y m d * 86400000)
      else none
    else none
  | _ => none

/-- Civil date from days since 1970-01-01 (inverse of `daysFromCivil`). -/
def civilFromDays (z : Int) : Int × Nat × Nat :=
  let z2 := z + 719468
  let era := Int.fdiv z2 146097
  let doe : Nat := (z2 - era * 146097).toNat
  let yoe : Nat := (doe - doe / 1460 + doe / 36524 - doe / 146096) / 365
  let doy : Nat := doe - (365 * yoe + yoe / 4 - yoe / 100)
  let mp : Nat := (5 * doy + 2) / 153
  let d : Nat := doy - (153 * mp + 2) / 5 + 1
  let m : Nat := if mp < 10 then mp + 3 else mp - 9
  ((yoe : Int) + era * 400 + (if m ≤ 2 then 1 else 0), m, d)

/-- Left-pad a number with zeros. -/
def padNum (n width : Nat) : String :=
  let s := toString n
  String.mk (List.replicate (width - s.length) '0') ++ s

/-- Models JS `new Date(ms).toISOString()` (UTC). -/
def toISOString (ms : Int) : String :=
  let days := Int.fdiv ms 86400000
  let msod : Nat := (ms - days * 86400000).toNat
  let ymd := civilFromDays days
  let y := ymd.1
  let yearStr :=
    if y < 0 then "-" ++ padNum (-y).toNat 6
    else if y > 9999 then "+" ++ padNum y.toNat 6
    else padNum y.toNat 4
  yearStr ++ "-" ++ padNum ymd.2.1 2 ++ "-" ++ padNum ymd.2.2 2 ++ "T" ++
    padNum (msod / 3600000) 2 ++ ":" ++ padNum (msod / 60000 % 60) 2 ++ ":" ++
    padNum (msod / 1000 % 60) 2 ++ "." ++ padNum (msod % 1000) 3 ++ "Z"

/-- A document as indexed (`IndexableDocument` in
`src/indexer/orama-index.ts`; timestamps in epoch milliseconds). -/
structure IndexableDocument where
  path : String
  title : String
  content : String
  tags : List String
  folder : String
  headings : List String
  createdAt : Int
  modifiedAt : Int
  frontmatter : String
deriving DecidableEq, Repr

/-- A numeric condition of the engine `where` clause (`gt`, `lt` or
inclusive `between`); a `none` bound models a `NaN` timestamp from an
invalid date, which no value satisfies. -/
inductive NumFilter where
  | gt (t : Option Int)
  | lt (t : Option Int)
  | between (lo hi : Option Int)
deriving DecidableEq, Repr

/-- The engine `where` clause built by `buildWhereClause`: only the three
keys `tags`, `createdAt`, `modifiedAt` ever occur. -/
structure WhereClause where
  tags : Option (List String)
  createdAt : Option NumFilter
  modifiedAt : Option NumFilter
deriving DecidableEq, Repr

/-- `OramaIndex.buildWhereClause` (`src/indexer/orama-index.ts`): tag
`containsAll` plus per-field date conditions; an operator-free date filter
becomes an inclusive full-day `between` via `setHours(0,0,0,0)` and
`setHours(23,59,59,999)` (modelled at UTC). -/
def buildWhereClause (q : ParsedQuery) : WhereClause :=
  let w0 : WhereClause :=
    { tags := if q.tags.length > 0 then some q.tags else none
      createdAt := none, modifiedAt := none }
  q.dateFilters.foldl (fun w f =>
    let ts := newDateMillis f.date
    let cond : NumFilter :=
      match f.operator with
      | .after => .gt ts
      | .before => .lt ts
      | .on => .between ts (ts.map (· + 86399999))
    match f.field with
    | .created => { w with createdAt := some cond }
    | .modified => { w with modifiedAt := some cond }) w0

/-- Modelled from the spec: evaluation of one numeric `where` condition by
the index engine (a black-box capability; `gt`/`lt` strict, `between`
inclusive, `NaN` bounds satisfied by nothing). -/
def numFilterOk : Option NumFilter → Int → Bool
  | none, _ => true
  | some (.gt (some t)), x => x > t
  | some (.lt (some t)), x => x < t
  | some (.between (some lo) (some hi)), x => lo ≤ x && x ≤ hi
  | some _, _ => false

/-- Modelled from the spec: whether a document satisfies the engine-native
`where` clause (tag containment plus numeric date ranges), the filtering
the engine applies to its result set. -/
def whereMatches (w : WhereClause) (doc : IndexableDocument) : Bool :=
  (match w.tags with
   | none => true
   | some ts => ts.all (fun t => doc.tags.contains t)) &&
  numFilterOk w.createdAt doc.createdAt &&
  numFilterOk w.modifiedAt doc.modifiedAt

/-- Engine state: internal id to stored document, plus the id counter.
The engine assigns its own opaque ids on insert (spec section 3);
modelled as a fresh counter. -/
structure EngineState where
  docs : List (Nat × IndexableDocument)
  nextId : Nat
deriving DecidableEq, Repr

/-- Engine `insert`: stores the document and returns the fresh id. -/
def insertEngine (db : EngineState) (doc : IndexableDocument) : Nat × EngineState :=
  (db.nextId, { docs := db.docs ++ [(db.nextId, doc)], nextId := db.nextId + 1 })

/-- Engine `remove`: drops the document with the given id; removing an
absent id is a no-op (the callers swallow that error). -/
def removeEngine (db : EngineState) (id : Nat) : EngineState :=
  { db with docs := db.docs.filter (fun e => e.1 ≠ id) }

/-- The `OramaIndex` instance state: the optional engine handle plus the
path-to-internal-id table and the auto-suggest sets. -/
structure OramaIndexState where
  db : Option EngineState
  pathToId : List (String × Nat)
  knownTags : List String
  knownFolders : List String
deriving DecidableEq, Repr

/-- Append if absent: models `Set.prototype.add` (insertion order). -/
def setAdd [DecidableEq α] (l : List α) (x : α) : List α :=
  if x ∈ l then l else l ++ [x]

/-- `OramaIndex.initialize`: fresh engine, cleared tables. -/
def OramaIndex.initState : OramaIndexState :=
  { db := some { docs := [], nextId := 0 }, pathToId := [],
    knownTags := [], knownFolders := [] }

/-- `OramaIndex.upsertDocument` (`src/indexer/orama-index.ts`): no-op
without an engine; otherwise remove the previously mapped id if any,
insert the new document and remap the path to the fresh id. -/
def OramaIndex.upsertDocument (st : OramaIndexState) (doc : IndexableDocument) :
    OramaIndexState :=
  match st.db with
  | none => st
  | some db =>
    let knownTags := doc.tags.foldl setAdd st.knownTags
    let knownFolders := if doc.folder ≠ "" then setAdd st.knownFolders doc.folder
      else st.knownFolders
    let db1 :=
      match alGet st.pathToId doc.path with
      | some id => removeEngine db id
      | none => db
    let ins := insertEngine db1 doc
    { db := some ins.2, pathToId := alSet st.pathToId doc.path ins.1,
      knownTags := knownTags, knownFolders := knownFolders }

/-- `OramaIndex.removeDocument`: remove the mapped id from the engine and
drop the mapping; no-op when the path is unmapped or the engine absent. -/
def OramaIndex.removeDocument (st : OramaIndexState) (path : String) :
    OramaIndexState :=
  match st.db with
  | none => st
  | some db =>
    match alGet st.pathToId path with
    | some id =>
      { st with db := some (removeEngine db id), pathToId := alDel st.pathToId path }
    | none => st

/-- `OramaIndex.documentCount`: engine `count`, 0 without an engine. -/
def OramaIndex.documentCount (st : OramaIndexState) : Nat :=
  match st.db with
  | none => 0
  | some db => db.docs.length

/-- A raw engine hit: the stored document plus the engine score (the
score scale is opaque here; it is passed through unmodified). -/
structure Hit where
  document : IndexableDocument
  score : Int
deriving DecidableEq, Repr

/-- The boost map sent to the engine (constant in the source). -/
structure Boost where
  title : Nat
  headings : Nat
  content : Nat
deriving DecidableEq, Repr

/-- The options record sent to the engine `search` call. -/
structure SearchOpts where
  term : String
  tolerance : Nat
  properties : List String
  limit : Nat
  whereC : Option WhereClause
  boost : Boost
deriving DecidableEq, Repr

inductive ScoreSource where
  | text
  | vector
  | hybrid
deriving DecidableEq, Repr

structure HighlightRange where
  start : Nat
  stop : Nat
deriving DecidableEq, Repr

/-- A search result (`SearchResult` in `src/types.ts`); timestamps are
rendered as ISO strings. -/
structure SearchResult where
  path : String
  title : String
  score : Int
  scoreSource : ScoreSource
  excerpt : String
  matchedTags : List String
  folder : String
  createdAt : String
  modifiedAt : String
  highlights : List HighlightRange
deriving DecidableEq, Repr

/-- JS `String.prototype.lastIndexOf(" ", fromIdx)` on a char list. -/
def jsLastIndexOfSpace (cs : List Char) (fromIdx : Nat) : Int :=
  match (((cs.take (fromIdx + 1)).enum.filter (fun ic => ic.2 = ' ')).map
      (fun ic => ic.1)).getLast? with
  | some i => Int.ofNat i
  | none => -1

/-- JS `slice(0, stop)` with a possibly negative stop index. -/
def jsSlice0 (cs : List Char) (stop : Int) : List Char :=
  if stop < 0 then cs.take ((cs.length : Int) + stop).toNat else cs.take stop.toNat

/-- `generatePreviewExcerpt` (`src/utils/text-processing.ts`): take the
first `len` characters, preferring the last word boundary not more than
30 characters back. -/
def generatePreviewExcerpt (content : String) (len : Nat) : String :=
  let cs := content.toList
  if cs.length ≤ len then content
  else
    let spaceIdx := jsLastIndexOfSpace cs len
    let cutoff : Int := if spaceIdx > (len : Int) - 30 then spaceIdx else (len : Int)
    String.mk (jsSlice0 cs cutoff) ++ "..."

/-- The concatenation `title content headings.join(" ")` that the
post-filters match against. -/
def searchableText (doc : IndexableDocument) : String :=
  doc.title ++ " " ++ doc.content ++ " " ++ String.intercalate " " doc.headings

/-- Path post-filter predicate (`src/indexer/orama-index.ts`, the
`hasPaths` filter): case-insensitive; a document passes when some filter
path `fp` satisfies folder = fp, folder starts with fp/, path starts
with fp/, or path starts with fp. -/
def pathFilterPred (paths : List String) (doc : IndexableDocument) : Bool :=
  let docPath := strLower doc.path
  let docFolder := strLower doc.folder
  paths.any fun filterPath =>
    let fp := strLower filterPath
    docFolder = fp || strStartsWith docFolder (fp ++ "/") ||
      strStartsWith docPath (fp ++ "/") || strStartsWith docPath (strLower fp)

/-- Exact-phrase post-filter predicate: whitespace-collapsed containment,
case-sensitive iff the flag is set. -/
def phrasePred (phrases : List String) (caseSensitive : Bool)
    (doc : IndexableDocument) : Bool :=
  let raw := String.mk (collapseWs (searchableText doc).toList)
  let searchable := if caseSensitive then raw else strLower raw
  phrases.all fun phrase =>
    let normalized := String.mk (collapseWs phrase.toList)
    strIncludes searchable (if caseSensitive then normalized else strLower normalized)

/-- Case-sensitive term post-filter predicate (engaged only when the
caseSensitive flag is set). -/
def csTermsPred (text : String) (doc : IndexableDocument) : Bool :=
  let terms := (splitWsStr text).filter (fun t => t.length > 0)
  terms.all fun term => strIncludes (searchableText doc) term

/-- Excluded-term post-filter predicate: both sides lower-cased
unconditionally. -/
def excludedTermsPred (terms : List String) (doc : IndexableDocument) : Bool :=
  terms.all fun term => !(strIncludes (strLower (searchableText doc)) (strLower term))

/-- Excluded-tag post-filter predicate: case-insensitive tag comparison. -/
def excludedTagsPred (tags : List String) (doc : IndexableDocument) : Bool :=
  tags.all fun tag => !(doc.tags.any fun t => strLower t = strLower tag)

/-- Heading-term post-filter predicate: some heading contains each
required term, case-sensitive iff the flag is set. -/
def headingTermsPred (terms : List String) (caseSensitive : Bool)
    (doc : IndexableDocument) : Bool :=
  terms.all fun term =>
    let lowerTerm := if caseSensitive then term else strLower term
    doc.headings.any fun h =>
      strIncludes (if caseSensitive then h else strLower h) lowerTerm

/-- Frontmatter post-filter predicate: the lower-cased flattened
frontmatter blob must contain each lower-cased `key:value` pair,
unconditionally case-insensitive. -/
def frontmatterPred (fm : List (String × String)) (doc : IndexableDocument) : Bool :=
  fm.all fun kv =>
    strIncludes (strLower doc.frontmatter) (strLower kv.1 ++ ":" ++ strLower kv.2)

/-- The post-filter pipeline of `OramaIndex.search`, in source order:
paths, phrases, case-sensitive terms, excluded terms, excluded tags,
heading terms, frontmatter; each pass engages only when its query part is
nonempty. -/
def postFilteredHits (q : ParsedQuery) (caseSensitive : Bool) (hits : List Hit) :
    List Hit :=
  let hits := if q.paths.length > 0 then
    hits.filter (fun h => pathFilterPred q.paths h.document) else hits
  let hits := if q.phrases.length > 0 then
    hits.filter (fun h => phrasePred q.phrases caseSensitive h.document) else hits
  let hits := if caseSensitive && (jsTrim q.text).length > 0 then
    hits.filter (fun h => csTermsPred q.text h.document) else hits
  let hits := if q.excludedTerms.length > 0 then
    hits.filter (fun h => excludedTermsPred q.excludedTerms h.document) else hits
  let hits := if q.excludedTags.length > 0 then
    hits.filter (fun h => excludedTagsPred q.excludedTags h.document) else hits
  let hits := if q.headingTerms.length > 0 then
    hits.filter (fun h => headingTermsPred q.headingTerms caseSensitive h.document) else hits
  let hits := if q.frontmatter.length > 0 then
    hits.filter (fun h => frontmatterPred q.frontmatter h.document) else hits
  hits

/-- Stable insertion preserving earlier elements among equal lengths
(models V8 stable `sort((a, b) => b.length - a.length)`). -/
def insertLenDesc (x : String) : List String → List String
  | [] => [x]
  | y :: ys => if x.length ≥ y.length then x :: y :: ys else y :: insertLenDesc x ys

/-- Stable descending-length sort. -/
def sortLenDesc (l : List String) : List String := l.foldr insertLenDesc []

/-- The single longest non-trivial word of a phrase (words of length at
least 3; empty string when none). -/
def longestPhraseWord (phrase : String) : String :=
  let words := (splitWsStr phrase).filter (fun w => w.length > 2)
  (sortLenDesc words).headD ""

/-- The term sent to the engine: the free text, plus per phrase only its
longest non-trivial word. -/
def rawSearchTerm (q : ParsedQuery) : String :=
  if q.phrases.length > 0 then
    jsTrim (String.intercalate " "
      (([q.text] ++ q.phrases.map longestPhraseWord).filter (fun s => s ≠ "")))
  else q.text

/-- Whether the built `where` clause has any key (JS
`Object.keys(whereClause).length > 0`). -/
def whereNonempty (w : WhereClause) : Bool :=
  w.tags.isSome || w.createdAt.isSome || w.modifiedAt.isSome

/-- Whether any post-filter pass will engage for this query. -/
def needsPostFilter (q : ParsedQuery) (caseSensitive : Bool) : Bool :=
  q.phrases.length > 0 || q.paths.length > 0 ||
    (caseSensitive && (jsTrim q.text).length > 0) ||
    q.excludedTerms.length > 0 || q.excludedTags.length > 0 ||
    q.headingTerms.length > 0 || q.frontmatter.length > 0

/-- The engine search term after the filters-only adjustment. -/
def effSearchTerm (q : ParsedQuery) : String :=
  let t := rawSearchTerm q
  let hasFiltersOnly := t.length = 0 &&
    (whereNonempty (buildWhereClause q) || q.paths.length > 0 ||
      q.headingTerms.length > 0 || q.frontmatter.length > 0)
  if hasFiltersOnly then "" else t

/-- The options record of the engine call, before the tolerance is set. -/
def searchOptsOf (q : ParsedQuery) (limit : Nat) (caseSensitive : Bool) : SearchOpts :=
  let w := buildWhereClause q
  { term := effSearchTerm q
    tolerance := 0
    properties := ["title", "content", "headings"]
    limit := if needsPostFilter q caseSensitive then limit * 10 else limit
    whereC := if whereNonempty w then some w else none
    boost := { title := 3, headings := 2, content := 1 } }

/-- The fuzzy gate: fuzzy enabled, no phrases, term longer than 4. -/
def useFuzzy (q : ParsedQuery) (fuzzy : Bool) : Bool :=
  fuzzy && !(q.phrases.length > 0) && (effSearchTerm q).length > 4

/-- The candidate hits before post-filtering: one engine call with
tolerance 1 when the fuzzy gate holds (0 otherwise), retried once with
tolerance 0 when the fuzzy call returns nothing. -/
def candidateHits (engine : EngineState → SearchOpts → List Hit) (db : EngineState)
    (q : ParsedQuery) (limit : Nat) (fuzzy caseSensitive : Bool) : List Hit :=
  let opts := searchOptsOf q limit caseSensitive
  let uf := useFuzzy q fuzzy
  let results := engine db { opts with tolerance := if uf then 1 else 0 }
  if results.isEmpty && uf then engine db { opts with tolerance := 0 } else results

/-- Map one raw hit to a `SearchResult` (`src/indexer/orama-index.ts`,
end of `search`). -/
def mkSearchResult (excerptLength : Nat) (hit : Hit) : SearchResult :=
  { path := hit.document.path
    title := hit.document.title
    score := hit.score
    scoreSource := .text
    excerpt := generatePreviewExcerpt hit.document.content excerptLength
    matchedTags := hit.document.tags
    folder := hit.document.folder
    createdAt := toISOString hit.document.createdAt
    modifiedAt := toISOString hit.document.modifiedAt
    highlights := [] }

/-- `OramaIndex.search` (`src/indexer/orama-index.ts`): empty without an
engine; otherwise engine retrieval (with fuzzy retry) over an abstract
engine retrieval function, the post-filter pipeline, truncation to
`limit`, and result mapping. -/
def OramaIndex.search (engine : EngineState → SearchOpts → List Hit)
    (st : OramaIndexState) (q : ParsedQuery) (limit excerptLength : Nat)
    (fuzzy caseSensitive : Bool) : List SearchResult :=
  match st.db with
  | none => []
  | some db =>
    let hits := candidateHits engine db q limit fuzzy caseSensitive
    let hits := postFilteredHits q caseSensitive hits
    (hits.take limit).map (mkSearchResult excerptLength)

/-- A vault file reference as seen by the sync handlers (`TFile`): its
path, its extension, and an opaque handle distinguishing revisions. -/
structure VFile where
  path : String
  ext : String
  ref : Nat
deriving DecidableEq, Repr

/-- Observable side effects of the sync pipeline, in emission order:
extraction of a file, index upsert, index removal, change notification. -/
inductive SyncEffect where
  | extract (path : String) (ref : Nat)
  | upsertDoc (path : String)
  | removeDoc (path : String)
  | notify
deriving DecidableEq, Repr

/-- Inputs to the sync state machine: the four vault events plus one
millisecond of elapsing time. -/
inductive SyncAction where
  | create (f : VFile)
  | modify (f : VFile)
  | deleteFile (f : VFile)
  | rename (f : VFile) (oldPath : String)
  | tick
deriving DecidableEq, Repr

/-- `IncrementalSync` state: the pending-update map (path to last queued
file reference), the debounce timer (remaining milliseconds), and the
log of emitted effects. -/
structure SyncState where
  pending : List (String × VFile)
  timer : Option Nat
  log : List SyncEffect
deriving DecidableEq, Repr

def initSync : SyncState := { pending := [], timer := none, log := [] }

/-- `IncrementalSync.flushPendingUpdates`: per entry one extraction and,
when extraction yields a document, one upsert; then exactly one change
notification when the batch was nonempty. -/
def flushLog (ix : VFile → Option IndexableDocument)
    (entries : List (String × VFile)) : List SyncEffect :=
  (entries.map fun e =>
    SyncEffect.extract e.2.path e.2.ref ::
      (match ix e.2 with
       | some d => [SyncEffect.upsertDoc d.path]
       | none => [])).flatten ++
  (if entries.isEmpty then [] else [SyncEffect.notify])

/-- One step of the sync state machine (`IncrementalSync.register` and
the debounce of `src/utils/debounce.ts`): create/modify of a markdown
file queue the path and restart the timer; delete bypasses the debounce
(pending entry dropped, immediate removal and notification); rename is an
immediate removal of the old path plus a debounced re-index of the new;
a tick decrements the timer and fires the flush at zero. -/
def syncStep (ix : VFile → Option IndexableDocument) (s : SyncState) :
    SyncAction → SyncState
  | .create f =>
    if f.ext = "md" then
      { pending := alSet s.pending f.path f,
        timer := some DEBOUNCE_MS.fileChange, log := s.log }
    else s
  | .modify f =>
    if f.ext = "md" then
      { pending := alSet s.pending f.path f,
        timer := some DEBOUNCE_MS.fileChange, log := s.log }
    else s
  | .deleteFile f =>
    { pending := alDel s.pending f.path, timer := s.timer,
      log := s.log ++ [.removeDoc f.path, .notify] }
  | .rename f oldPath =>
    if f.ext = "md" then
      { pending := alSet s.pending f.path f,
        timer := some DEBOUNCE_MS.fileChange,
        log := s.log ++ [.removeDoc oldPath] }
    else s
  | .tick =>
    match s.timer with
    | none => s
    | some 0 => { pending := [], timer := none, log := s.log ++ flushLog ix s.pending }
    | some (n + 1) => { s with timer := some n }

/-- Run the sync state machine over a list of actions. -/
def syncRun (ix : VFile → Option IndexableDocument) (s : SyncState)
    (acts : List SyncAction) : SyncState :=
  acts.foldl (syncStep ix) s

/-- The action trace of modify events for one path, each followed by its
gap of elapsed milliseconds, and then a full debounce window of quiet. -/
def modifyTrace (p : String) (evs : List (Nat × Nat)) : List SyncAction :=
  (evs.map fun e =>
    SyncAction.modify { path := p, ext := "md", ref := e.1 } ::
      List.replicate e.2 .tick).flatten ++
  List.replicate (DEBOUNCE_MS.fileChange + 1) .tick

/-- A persisted snapshot record (`StoredIndex` in `src/types.ts`). -/
structure StoredIndex where
  vaultId : String
  data : String
  lastFullBuild : Int
  documentCount : Nat
  schemaVersion : Nat
deriving DecidableEq, Repr

/-- `IndexStore.loadIndex` (`src/storage/index-store.ts`): returns the
stored record only when its schema version equals the running version. -/
def IndexStore.loadIndex (stored : Option StoredIndex) : Option StoredIndex :=
  match stored with
  | some s => if s.schemaVersion = INDEX_SCHEMA_VERSION then some s else none
  | none => none

/-- The parsed snapshot payload: the serialized engine blob and the
path-to-id table (its deserialization is the engine's black box). -/
structure Snapshot where
  raw : String
  pathMap : List (String × String)
deriving DecidableEq, Repr

/-- Outcome of `CacheManager.initialize`: the snapshot was loaded (with
the cached count and timestamp), or a full rebuild was performed. -/
inductive InitOutcome where
  | loaded (documentCount : Nat) (lastUpdated : Int)
  | rebuilt
deriving DecidableEq, Repr

/-- `CacheManager.initialize` (`src/storage/cache-manager.ts`): load the
snapshot from the store; when it exists (schema version already checked
by `IndexStore.loadIndex`) rebuild if the stale-cache detection fires
(`vaultFileCount > 0` and cached count below 0.8 of the vault file
count, the fraction modelled exactly as 4/5), otherwise parse and load
it; any parse failure (`JSON.parse` throwing) falls through to rebuild. -/
def CacheManager.init (stored : Option StoredIndex)
    (parse : String → Option Snapshot) (vaultFileCount : Nat) : InitOutcome :=
  match IndexStore.loadIndex stored with
  | some cached =>
    if vaultFileCount > 0 && 5 * cached.documentCount < 4 * vaultFileCount then
      .rebuilt
    else
      match parse cached.data with
      | some _ => .loaded cached.documentCount cached.lastFullBuild
      | none => .rebuilt
  | none => .rebuilt


theorem alGet_alSet_self [DecidableEq κ] (m : List (κ × α)) (p : κ) (v : α) :
    alGet (alSet m p v) p = some v := by
  induction m with
  | nil => simp [alSet, alGet]
  | cons kv r ih =>
    obtain ⟨k, w⟩ := kv
    by_cases h : k = p
    · subst h; simp [alSet, alGet]
    · simp [alSet, alGet, h, ih]

theorem alGet_eq_none_iff [DecidableEq κ] (m : List (κ × α)) (p : κ) :
    alGet m p = none ↔ p ∉ m.map Prod.fst := by
  induction m with
  | nil => simp [alGet]
  | cons kv r ih =>
    obtain ⟨k, w⟩ := kv
    by_cases h : k = p
    · subst h
      simp only [alGet, if_pos rfl, List.map_cons, List.mem_cons]
      simp
    · have hpk : ¬p = k := fun e => h e.symm
      simp only [alGet, if_neg h, List.map_cons, List.mem_cons, ih]
      simp [hpk]

theorem alGet_mem [DecidableEq κ] {m : List (κ × α)} {p : κ} {v : α}
    (h : alGet m p = some v) : (p, v) ∈ m := by
  induction m with
  | nil => simp [alGet] at h
  | cons kv r ih =>
    obtain ⟨k, w⟩ := kv
    by_cases hk : k = p
    · subst hk
      rw [show alGet ((k, w) :: r) k = some w from by simp [alGet]] at h
      injection h with h2
      subst h2
      exact List.mem_cons_self _ _
    · simp only [alGet, if_neg hk] at h
      exact List.mem_cons_of_mem _ (ih h)

theorem map_fst_alSet_mem [DecidableEq κ] {m : List (κ × α)} {p : κ} (v : α)
    (h : p ∈ m.map Prod.fst) : (alSet m p v).map Prod.fst = m.map Prod.fst := by
  induction m with
  | nil => simp at h
  | cons kv r ih =>
    obtain ⟨k, w⟩ := kv
    by_cases hk : k = p
    · subst hk; simp [alSet]
    · have hpk : ¬p = k := fun e => hk e.symm
      simp only [List.map_cons, List.mem_cons] at h
      rcases h with h | h
      · exact absurd h hpk
      · simp only [alSet, if_neg hk, List.map_cons, ih h]

theorem map_fst_alSet_not_mem [DecidableEq κ] {m : List (κ × α)} {p : κ} (v : α)
    (h : p ∉ m.map Prod.fst) : (alSet m p v).map Prod.fst = m.map Prod.fst ++ [p] := by
  induction m with
  | nil => simp [alSet]
  | cons kv r ih =>
    obtain ⟨k, w⟩ := kv
    simp only [List.map_cons, List.mem_cons, not_or] at h
    have hk : k ≠ p := fun e => h.1 e.symm
    simp only [alSet, if_neg hk, List.map_cons, List.cons_append, ih h.2]

theorem mem_alSet [DecidableEq κ] {m : List (κ × α)} {p : κ} {v : α} {x : κ × α}
    (hk : (m.map Prod.fst).Nodup) (h : x ∈ alSet m p v) :
    x = (p, v) ∨ (x ∈ m ∧ x.1 ≠ p) := by
  induction m with
  | nil =>
    simp only [alSet, List.mem_singleton] at h
    exact Or.inl h
  | cons kv r ih =>
    obtain ⟨k, w⟩ := kv
    simp only [List.map_cons, List.nodup_cons] at hk
    by_cases hkp : k = p
    · subst hkp
      rw [show alSet ((k, w) :: r) k v = (k, v) :: r from by simp [alSet],
        List.mem_cons] at h
      rcases h with h | h
      · exact Or.inl h
      · refine Or.inr ⟨List.mem_cons_of_mem _ h, fun hx => ?_⟩
        exact hk.1 (hx ▸ List.mem_map_of_mem Prod.fst h)
    · simp only [alSet, if_neg hkp, List.mem_cons] at h
      rcases h with h | h
      · exact Or.inr ⟨by simp [h], by simp [h, hkp]⟩
      · rcases ih hk.2 h with h1 | h1
        · exact Or.inl h1
        · exact Or.inr ⟨List.mem_cons_of_mem _ h1.1, h1.2⟩

theorem mem_map_snd_alSet [DecidableEq κ] {m : List (κ × α)} {p : κ} {v : α} {i : α}
    (h : i ∈ (alSet m p v).map Prod.snd) : i = v ∨ i ∈ m.map Prod.snd := by
  induction m with
  | nil =>
    simp only [alSet, List.map_cons, List.map_nil, List.mem_singleton] at h
    exact Or.inl h
  | cons kv r ih =>
    obtain ⟨k, w⟩ := kv
    by_cases hkp : k = p
    · subst hkp
      rw [show alSet ((k, w) :: r) k v = (k, v) :: r from by simp [alSet],
        List.map_cons, List.mem_cons] at h
      rcases h with h | h
      · exact Or.inl h
      · exact Or.inr (by simp only [List.map_cons, List.mem_cons]; exact Or.inr h)
    · simp only [alSet, if_neg hkp, List.map_cons, List.mem_cons] at h
      rcases h with h | h
      · exact Or.inr (by simp only [List.map_cons, List.mem_cons]; exact Or.inl h)
      · rcases ih h with h1 | h1
        · exact Or.inl h1
        · exact Or.inr (by simp only [List.map_cons, List.mem_cons]; exact Or.inr h1)

theorem nodup_snd_alSet [DecidableEq κ] {m : List (κ × Nat)} {p : κ} {n : Nat}
    (hi : (m.map Prod.snd).Nodup) (hlt : ∀ i ∈ m.map Prod.snd, i < n) :
    ((alSet m p n).map Prod.snd).Nodup := by
  induction m with
  | nil => simp [alSet]
  | cons kv r ih =>
    obtain ⟨k, w⟩ := kv
    simp only [List.map_cons, List.nodup_cons] at hi
    by_cases hkp : k = p
    · subst hkp
      rw [show alSet ((k, w) :: r) k n = (k, n) :: r from by simp [alSet],
        List.map_cons, List.nodup_cons]
      refine ⟨fun hmem => ?_, hi.2⟩
      have := hlt n (by simp only [List.map_cons, List.mem_cons]; exact Or.inr hmem)
      omega
    · simp only [alSet, if_neg hkp, List.map_cons, List.nodup_cons]
      refine ⟨fun hmem => ?_,
        ih hi.2 (fun i hm => hlt i (by
          simp only [List.map_cons, List.mem_cons]; exact Or.inr hm))⟩
      rcases mem_map_snd_alSet hmem with h1 | h1
      · have := hlt w (by simp)
        omega
      · exact hi.1 h1

theorem alDel_sublist [DecidableEq κ] (m : List (κ × α)) (p : κ) :
    List.Sublist (alDel m p) m := by
  induction m with
  | nil => simp [alDel]
  | cons kv r ih =>
    obtain ⟨k, w⟩ := kv
    by_cases hk : k = p
    · subst hk
      rw [show alDel ((k, w) :: r) k = r from by simp [alDel]]
      exact List.sublist_cons_self _ _
    · rw [show alDel ((k, w) :: r) p = (k, w) :: alDel r p from by simp [alDel, hk]]
      exact ih.cons₂ (k, w)

theorem mem_alDel_of_nodup [DecidableEq κ] {m : List (κ × α)} {p : κ} {x : κ × α}
    (hk : (m.map Prod.fst).Nodup) (h : x ∈ alDel m p) : x ∈ m ∧ x.1 ≠ p := by
  induction m with
  | nil => simp [alDel] at h
  | cons kv r ih =>
    obtain ⟨k, w⟩ := kv
    simp only [List.map_cons, List.nodup_cons] at hk
    by_cases hkp : k = p
    · subst hkp
      rw [show alDel ((k, w) :: r) k = r from by simp [alDel]] at h
      refine ⟨List.mem_cons_of_mem _ h, fun hx => ?_⟩
      exact hk.1 (hx ▸ List.mem_map_of_mem Prod.fst h)
    · simp only [alDel, if_neg hkp, List.mem_cons] at h
      rcases h with h | h
      · exact ⟨by simp [h], by simp [h, hkp]⟩
      · obtain ⟨h1, h2⟩ := ih hk.2 h
        exact ⟨List.mem_cons_of_mem _ h1, h2⟩

theorem length_filter_ne {β : Type} {docs : List (Nat × β)} {i : Nat}
    (hnd : (docs.map Prod.fst).Nodup) (hm : i ∈ docs.map Prod.fst) :
    (docs.filter (fun e => e.1 ≠ i)).length + 1 = docs.length := by
  induction docs with
  | nil => simp at hm
  | cons x r ih =>
    simp only [List.map_cons, List.nodup_cons] at hnd
    simp only [List.map_cons, List.mem_cons] at hm
    by_cases heq : x.1 = i
    · have hr : r.filter (fun e => e.1 ≠ i) = r := by
        refine List.filter_eq_self.mpr (fun a ha => ?_)
        simp only [ne_eq, decide_eq_true_eq]
        intro hai
        exact hnd.1 (heq ▸ hai ▸ List.mem_map_of_mem Prod.fst ha)
      rw [List.filter_cons, if_neg (by simp [heq]), hr]
      simp
    · rcases hm with hm | hm
      · exact absurd hm.symm heq
      · have := ih hnd.2 hm
        rw [List.filter_cons, if_pos (by simp [heq])]
        simp only [List.length_cons]
        omega

theorem mem_map_fst_filter_ne {β : Type} {docs : List (Nat × β)} {j i : Nat}
    (hj : j ∈ docs.map Prod.fst) (hne : j ≠ i) :
    j ∈ (docs.filter (fun e => e.1 ≠ i)).map Prod.fst := by
  rw [List.mem_map] at hj ⊢
  obtain ⟨e, he, rfl⟩ := hj
  exact ⟨e, List.mem_filter.mpr ⟨he, by simpa using hne⟩, rfl⟩

/-- Well-formedness of the path-to-id table against the engine contents:
distinct keys, distinct ids, every mapped id live in the engine, distinct
live ids, and all live ids below the id counter. -/
def InvParts (m : List (String × Nat)) (db : EngineState) : Prop :=
  (m.map Prod.fst).Nodup ∧ (m.map Prod.snd).Nodup ∧
  (∀ e ∈ m, e.2 ∈ db.docs.map Prod.fst) ∧
  (db.docs.map Prod.fst).Nodup ∧
  (∀ i ∈ db.docs.map Prod.fst, i < db.nextId)

theorem invParts_upsert {st : OramaIndexState} {db : EngineState}
    (d : IndexableDocument) (hdb : st.db = some db)
    (hinv : InvParts st.pathToId db) :
    ∃ db2, (OramaIndex.upsertDocument st d).db = some db2 ∧
      InvParts (OramaIndex.upsertDocument st d).pathToId db2 ∧
      db2.docs.length =
        (match alGet st.pathToId d.path with
          | some _ => db.docs.length
          | none => db.docs.length + 1) := by
  obtain ⟨hk, hi, hlive, hdn, hb⟩ := hinv
  have hmlt : ∀ i ∈ st.pathToId.map Prod.snd, i < db.nextId := by
    intro i him
    rw [List.mem_map] at him
    obtain ⟨e, he, rfl⟩ := him
    exact hb _ (hlive e he)
  cases hget : alGet st.pathToId d.path with
  | none =>
    have hnp : d.path ∉ st.pathToId.map Prod.fst := (alGet_eq_none_iff _ _).mp hget
    refine ⟨(insertEngine db d).2, ?_, ⟨?_, ?_, ?_, ?_, ?_⟩, ?_⟩
    · simp [OramaIndex.upsertDocument, hdb, hget]
    · simp only [OramaIndex.upsertDocument, hdb, hget]
      rw [map_fst_alSet_not_mem _ hnp]
      rw [List.nodup_append]
      exact ⟨hk, List.nodup_singleton _, fun a ha hb2 => by
        simp at hb2; exact hnp (hb2 ▸ ha)⟩
    · simp only [OramaIndex.upsertDocument, hdb, hget]
      exact nodup_snd_alSet hi hmlt
    · simp only [OramaIndex.upsertDocument, hdb, hget]
      intro e he
      rcases mem_alSet hk he with he1 | he1
      · subst he1
        simp [insertEngine]
      · simp only [insertEngine, List.map_append, List.mem_append]
        exact Or.inl (hlive e he1.1)
    · simp only [OramaIndex.upsertDocument, hdb, hget, insertEngine, List.map_append]
      rw [List.nodup_append]
      refine ⟨hdn, by simp, fun a ha hb2 => ?_⟩
      simp at hb2
      exact absurd (hb2 ▸ hb a ha) (lt_irrefl _)
    · simp only [OramaIndex.upsertDocument, hdb, hget, insertEngine, List.map_append]
      intro i hi2
      rw [List.mem_append] at hi2
      rcases hi2 with hi2 | hi2
      · have := hb _ hi2
        omega
      · simp at hi2
        omega
    · simp [insertEngine]
  | some id₀ =>
    have hmem₀ : (d.path, id₀) ∈ st.pathToId := alGet_mem hget
    have hlive₀ : id₀ ∈ db.docs.map Prod.fst := hlive _ hmem₀
    have hpmem : d.path ∈ st.pathToId.map Prod.fst :=
      List.mem_map_of_mem Prod.fst hmem₀
    refine ⟨(insertEngine (removeEngine db id₀) d).2, ?_, ⟨?_, ?_, ?_, ?_, ?_⟩, ?_⟩
    · simp [OramaIndex.upsertDocument, hdb, hget]
    · simp only [OramaIndex.upsertDocument, hdb, hget]
      rw [map_fst_alSet_mem _ hpmem]
      exact hk
    · simp only [OramaIndex.upsertDocument, hdb, hget]
      exact nodup_snd_alSet hi hmlt
    · simp only [OramaIndex.upsertDocument, hdb, hget]
      intro e he
      rcases mem_alSet hk he with he1 | he1
      · subst he1
        simp [insertEngine, removeEngine]
      · have hed : e.2 ∈ db.docs.map Prod.fst := hlive e he1.1
        have hne : e.2 ≠ id₀ := by
          intro hcontra
          have := List.inj_on_of_nodup_map hi he1.1 hmem₀ hcontra
          exact he1.2 (by rw [this])
        simp only [insertEngine, removeEngine, List.map_append, List.mem_append]
        exact Or.inl (mem_map_fst_filter_ne hed hne)
    · simp only [OramaIndex.upsertDocument, hdb, hget, insertEngine, removeEngine,
        List.map_append]
      rw [List.nodup_append]
      refine ⟨hdn.sublist (List.Sublist.map _ (List.filter_sublist _)), by simp,
        fun a ha hb2 => ?_⟩
      simp at hb2
      rw [List.mem_map] at ha
      obtain ⟨e, he, rfl⟩ := ha
      have := hb _ (List.mem_map_of_mem Prod.fst (List.mem_of_mem_filter he))
      omega
    · simp only [OramaIndex.upsertDocument, hdb, hget, insertEngine, removeEngine,
        List.map_append]
      intro i hi2
      rw [List.mem_append] at hi2
      rcases hi2 with hi2 | hi2
      · rw [List.mem_map] at hi2
        obtain ⟨e, he, rfl⟩ := hi2
        have := hb _ (List.mem_map_of_mem Prod.fst (List.mem_of_mem_filter he))
        omega
      · simp at hi2
        omega
    · simp only [insertEngine, removeEngine, List.length_append, List.length_singleton]
      exact length_filter_ne hdn hlive₀


theorem invParts_remove {st : OramaIndexState} {db : EngineState}
    (p : String) (hdb : st.db = some db) (hinv : InvParts st.pathToId db) :
    ∃ db2, (OramaIndex.removeDocument st p).db = some db2 ∧
      InvParts (OramaIndex.removeDocument st p).pathToId db2 := by
  obtain ⟨hk, hi, hlive, hdn, hb⟩ := hinv
  cases hget : alGet st.pathToId p with
  | none =>
    have hstate : OramaIndex.removeDocument st p = st := by
      simp [OramaIndex.removeDocument, hdb, hget]
    rw [hstate]
    exact ⟨db, hdb, hk, hi, hlive, hdn, hb⟩
  | some id₀ =>
    have hmem₀ : (p, id₀) ∈ st.pathToId := alGet_mem hget
    refine ⟨removeEngine db id₀, ?_, ?_, ?_, ?_, ?_, ?_⟩
    · simp [OramaIndex.removeDocument, hdb, hget]
    · simp only [OramaIndex.removeDocument, hdb, hget]
      exact hk.sublist (List.Sublist.map _ (alDel_sublist _ _))
    · simp only [OramaIndex.removeDocument, hdb, hget]
      exact hi.sublist (List.Sublist.map _ (alDel_sublist _ _))
    · simp only [OramaIndex.removeDocument, hdb, hget]
      intro e he
      obtain ⟨he1, he2⟩ := mem_alDel_of_nodup hk he
      have hed : e.2 ∈ db.docs.map Prod.fst := hlive e he1
      have hne : e.2 ≠ id₀ := by
        intro hcontra
        exact he2 (by rw [List.inj_on_of_nodup_map hi he1 hmem₀ hcontra])
      exact mem_map_fst_filter_ne hed hne
    · exact hdn.sublist (List.Sublist.map _ (List.filter_sublist _))
    · intro i hi2
      simp only [removeEngine] at hi2 ⊢
      rw [List.mem_map] at hi2
      obtain ⟨e, he, rfl⟩ := hi2
      exact hb _ (List.mem_map_of_mem Prod.fst (List.mem_of_mem_filter he))

/-- One index mutation: upsert of a document or removal of a path. -/
inductive IndexOp where
  | up (doc : IndexableDocument)
  | rm (path : String)

/-- Apply a sequence of upsert/remove operations. -/
def applyOps (st : OramaIndexState) (ops : List IndexOp) : OramaIndexState :=
  ops.foldl (fun s o =>
    match o with
    | .up d => OramaIndex.upsertDocument s d
    | .rm p => OramaIndex.removeDocument s p) st

theorem invParts_applyOps {st : OramaIndexState} {db : EngineState}
    (ops : List IndexOp) (hdb : st.db = some db)
    (hinv : InvParts st.pathToId db) :
    ∃ db2, (applyOps st ops).db = some db2 ∧
      InvParts (applyOps st ops).pathToId db2 := by
  induction ops generalizing st db with
  | nil => exact ⟨db, hdb, hinv⟩
  | cons o rest ih =>
    cases o with
    | up d =>
      obtain ⟨db1, hdb1, hinv1, _⟩ := invParts_upsert d hdb hinv
      exact ih hdb1 hinv1
    | rm p =>
      obtain ⟨db1, hdb1, hinv1⟩ := invParts_remove p hdb hinv
      exact ih hdb1 hinv1

theorem invParts_initState :
    OramaIndex.initState.db = some { docs := [], nextId := 0 } ∧
    InvParts OramaIndex.initState.pathToId { docs := [], nextId := 0 } := by
  refine ⟨rfl, ?_, ?_, ?_, ?_, ?_⟩ <;> simp [OramaIndex.initState, InvParts]

theorem alGet_upsert_self {st : OramaIndexState} {db : EngineState}
    (d : IndexableDocument) (hdb : st.db = some db) :
    alGet (OramaIndex.upsertDocument st d).pathToId d.path ≠ none := by
  cases hget : alGet st.pathToId d.path with
  | none =>
    simp only [OramaIndex.upsertDocument, hdb, hget]
    rw [alGet_alSet_self]
    simp
  | some id₀ =>
    simp only [OramaIndex.upsertDocument, hdb, hget]
    rw [alGet_alSet_self]
    simp

/-- Sample document for concrete instantiations of index operations. -/
def c4doc : IndexableDocument :=
  { path := "a.md", title := "a", content := "alpha", tags := [], folder := "",
    headings := [], createdAt := 0, modifiedAt := 0, frontmatter := "" }

/-- C4 (counterexample): calling `upsertDocument` twice does not leave the
same internal id mapped to the path as calling it once: the engine assigns
a fresh opaque id on re-insert, so the double upsert maps `a.md` to id 1
while the single upsert maps it to id 0 (the document counts agree). -/
theorem c4_counterexample :
    alGet (OramaIndex.upsertDocument
        (OramaIndex.upsertDocument OramaIndex.initState c4doc) c4doc).pathToId
      "a.md" = some 1 ∧
    alGet (OramaIndex.upsertDocument OramaIndex.initState c4doc).pathToId
      "a.md" = some 0 ∧
    OramaIndex.documentCount (OramaIndex.upsertDocument
        (OramaIndex.upsertDocument OramaIndex.initState c4doc) c4doc) =
      OramaIndex.documentCount
        (OramaIndex.upsertDocument OramaIndex.initState c4doc) := by
  decide

/-- C4 (amended): from any state reachable from an initialized index by
upsert/remove sequences, the path-to-id table stays well formed (distinct
keys and ids, every mapped id live, below the counter), so each path maps
to at most one live internal id; and upserting the same document twice
leaves the same document count as upserting it once, with the path mapped
to a single internal id — the id value itself being freshly assigned by
the engine on each re-insert. -/
theorem upsert_idempotent_and_unique_id :
    (∀ ops : List IndexOp, ∃ db, (applyOps OramaIndex.initState ops).db = some db ∧
      InvParts (applyOps OramaIndex.initState ops).pathToId db) ∧
    (∀ (st : OramaIndexState) (db : EngineState) (d : IndexableDocument),
      st.db = some db → InvParts st.pathToId db →
      OramaIndex.documentCount
          (OramaIndex.upsertDocument (OramaIndex.upsertDocument st d) d) =
        OramaIndex.documentCount (OramaIndex.upsertDocument st d) ∧
      (∃ i, alGet (OramaIndex.upsertDocument
          (OramaIndex.upsertDocument st d) d).pathToId d.path = some i) ∧
      ((OramaIndex.upsertDocument
          (OramaIndex.upsertDocument st d) d).pathToId.map Prod.fst).Nodup) := by
  constructor
  · intro ops
    exact invParts_applyOps ops invParts_initState.1 invParts_initState.2
  · intro st db d hdb hinv
    obtain ⟨db1, hdb1, hinv1, hlen1⟩ := invParts_upsert d hdb hinv
    obtain ⟨db2, hdb2, hinv2, hlen2⟩ := invParts_upsert d hdb1 hinv1
    obtain ⟨j, hj⟩ := Option.ne_none_iff_exists'.mp (alGet_upsert_self d hdb)
    rw [hj] at hlen2
    refine ⟨?_, ?_, hinv2.1⟩
    · simp only [OramaIndex.documentCount, hdb2, hdb1]
      exact hlen2
    · exact Option.ne_none_iff_exists'.mp (alGet_upsert_self d hdb1)

/-- C4 (witness): the amended statement instantiated at a fresh index and
a concrete document. -/
theorem upsert_idempotent_witness :
    OramaIndex.documentCount (OramaIndex.upsertDocument
        (OramaIndex.upsertDocument OramaIndex.initState c4doc) c4doc) =
      OramaIndex.documentCount
        (OramaIndex.upsertDocument OramaIndex.initState c4doc) ∧
    (∃ i, alGet (OramaIndex.upsertDocument
        (OramaIndex.upsertDocument OramaIndex.initState c4doc) c4doc).pathToId
      c4doc.path = some i) :=
  ⟨(upsert_idempotent_and_unique_id.2 OramaIndex.initState _ c4doc rfl
      (by unfold InvParts; decide)).1,
   (upsert_idempotent_and_unique_id.2 OramaIndex.initState _ c4doc rfl
      (by unfold InvParts; decide)).2.1⟩

/-- C8: for every query, limit and excerpt length, calling search while
the engine is not yet initialized returns an empty result list; the
definition is total, so no failure path exists (never throws). -/
theorem search_not_ready_empty (engine : EngineState → SearchOpts → List Hit)
    (st : OramaIndexState) (q : ParsedQuery) (limit excerptLength : Nat)
    (fuzzy caseSensitive : Bool) (h : st.db = none) :
    OramaIndex.search engine st q limit excerptLength fuzzy caseSensitive = [] := by
  simp [OramaIndex.search, h]

/-- The state of an `OramaIndex` before `initialize` ran. -/
def notReadyState : OramaIndexState :=
  { db := none, pathToId := [], knownTags := [], knownFolders := [] }

/-- C8 (witness): a concrete search against an uninitialized engine. -/
theorem search_not_ready_empty_witness :
    OramaIndex.search (fun _ _ => []) notReadyState (parseQuery "meeting")
      20 150 true false = [] :=
  search_not_ready_empty _ _ _ _ _ _ _ rfl

/-- C3: `initialize` loads the snapshot only when it exists, its schema
version matches and the staleness check passes (cached count at least 0.8
of the live file count, modelled exactly as 4/5); documentCount 10
against 20 live files always rebuilds; with 0 live files staleness never
triggers, so an existing matching parseable snapshot loads. -/
theorem cacheInit_loads_only_fresh :
    (∀ (stored : Option StoredIndex) (parse : String → Option Snapshot)
        (fc dc : Nat) (lu : Int),
      CacheManager.init stored parse fc = .loaded dc lu →
      ∃ s, stored = some s ∧ s.schemaVersion = INDEX_SCHEMA_VERSION ∧
        s.documentCount = dc ∧ s.lastFullBuild = lu ∧
        (fc = 0 ∨ 4 * fc ≤ 5 * dc)) ∧
    (∀ (parse : String → Option Snapshot) (s : StoredIndex),
      s.documentCount = 10 → CacheManager.init (some s) parse 20 = .rebuilt) ∧
    (∀ (parse : String → Option Snapshot) (s : StoredIndex) (snap : Snapshot),
      s.schemaVersion = INDEX_SCHEMA_VERSION → parse s.data = some snap →
      CacheManager.init (some s) parse 0 =
        .loaded s.documentCount s.lastFullBuild) := by
  refine ⟨?_, ?_, ?_⟩
  · intro stored parse fc dc lu h
    cases stored with
    | none => simp [CacheManager.init, IndexStore.loadIndex] at h
    | some s =>
      by_cases hv : s.schemaVersion = INDEX_SCHEMA_VERSION
      · simp only [CacheManager.init, IndexStore.loadIndex, if_pos hv] at h
        refine ⟨s, rfl, hv, ?_⟩
        split at h
        · cases h
        · rename_i hcond
          simp only [Bool.and_eq_true, decide_eq_true_eq, not_and, not_lt] at hcond
          split at h
          · injection h with h1 h2
            refine ⟨h1, h2, ?_⟩
            by_cases hfc : fc = 0
            · exact Or.inl hfc
            · have := hcond (by omega)
              omega
          · cases h
      · simp [CacheManager.init, IndexStore.loadIndex, hv] at h
  · intro parse s h10
    by_cases hv : s.schemaVersion = INDEX_SCHEMA_VERSION
    · simp [CacheManager.init, IndexStore.loadIndex, hv, h10]
    · simp [CacheManager.init, IndexStore.loadIndex, hv]
  · intro parse s snap hv hparse
    simp [CacheManager.init, IndexStore.loadIndex, hv, hparse]

/-- A concrete stored snapshot record. -/
def c3store : StoredIndex :=
  { vaultId := "v", data := "blob", lastFullBuild := 5, documentCount := 10,
    schemaVersion := INDEX_SCHEMA_VERSION }

/-- C3 (witness): with 0 live files an existing matching snapshot loads. -/
theorem cacheInit_witness :
    CacheManager.init (some c3store)
      (fun _ => some { raw := "blob", pathMap := [] }) 0 = .loaded 10 5 :=
  cacheInit_loads_only_fresh.2.2 (fun _ => some { raw := "blob", pathMap := [] })
    c3store { raw := "blob", pathMap := [] } rfl rfl

/-- C9 (counterexample): the unbracketed prefix token `status:` with no
value after the colon is not recorded as a frontmatter filter with an
empty value (the generic catch-all requires a nonempty value); it stays
in the residual free text. -/
theorem c9_counterexample :
    (parseQuery "status:").frontmatter = [] ∧
    (parseQuery "status:").text = "status:" := by decide

/-- C9 (amended): a bracketed prefix token with no value (`[status]` or
`[status]:`) is accepted and recorded with the empty value; an
unbracketed prefix token with no value (`status:`, `path:`) is accepted
without error but left in the residual free text with no filter
recorded. -/
theorem empty_value_tokens :
    (parseQuery "[status]").frontmatter = [("status", "")] ∧
    (parseQuery "[status]:").frontmatter = [("status", "")] ∧
    (parseQuery "status:").frontmatter = [] ∧
    (parseQuery "status:").text = "status:" ∧
    (parseQuery "path:").paths = [] ∧
    (parseQuery "path:").text = "path:" := by decide

/-- A document whose creation timestamp is the given epoch millisecond. -/
def c7doc (t : Int) : IndexableDocument :=
  { path := "d.md", title := "d", content := "", tags := [], folder := "",
    headings := [], createdAt := t, modifiedAt := 0, frontmatter := "" }

/-- C7: an operator-free `created:` date filter builds an inclusive
full-day range, so a document matches exactly when its createdAt lies
between the day start and dayStart+86399999; concretely,
`created:2024-01-01` matches 2024-01-01T00:00:00.000 and
2024-01-01T23:59:59.999 but not 2024-01-02T00:00:00.000. -/
theorem created_on_day_boundary :
    (∀ (q : ParsedQuery) (d : String) (t0 : Int) (doc : IndexableDocument),
      q.dateFilters = [{ field := .created, operator := .on, date := d }] →
      q.tags = [] → newDateMillis d = some t0 →
      (whereMatches (buildWhereClause q) doc = true ↔
        t0 ≤ doc.createdAt ∧ doc.createdAt ≤ t0 + 86399999)) ∧
    whereMatches (buildWhereClause (parseQuery "created:2024-01-01"))
      (c7doc 1704067200000) = true ∧
    whereMatches (buildWhereClause (parseQuery "created:2024-01-01"))
      (c7doc 1704153599999) = true ∧
    whereMatches (buildWhereClause (parseQuery "created:2024-01-01"))
      (c7doc 1704153600000) = false := by
  refine ⟨?_, by decide, by decide, by decide⟩
  intro q d t0 doc hdf htags hd
  simp only [buildWhereClause, hdf, htags, List.foldl_cons, List.foldl_nil, hd,
    List.length_nil, Option.map_some]
  simp [whereMatches, numFilterOk, decide_eq_true_eq]

theorem mem_of_condFilter {α : Type} {P : Prop} [Decidable P] {p : α → Bool}
    {l : List α} {x : α} (h : x ∈ if P then l.filter p else l) : x ∈ l := by
  split at h
  · exact (List.mem_filter.mp h).1
  · exact h

theorem pred_of_condFilter {α : Type} {P : Prop} [Decidable P] {p : α → Bool}
    {l : List α} {x : α} (h : x ∈ if P then l.filter p else l) (hP : P) :
    p x = true := by
  rw [if_pos hP] at h
  exact (List.mem_filter.mp h).2

theorem mem_condFilter_of {α : Type} {P : Prop} [Decidable P] {p : α → Bool}
    {l : List α} {x : α} (hx : x ∈ l) (hp : P → p x = true) :
    x ∈ if P then l.filter p else l := by
  split
  · rename_i hP
    exact List.mem_filter.mpr ⟨hx, hp hP⟩
  · exact hx

/-- C10: the excluded-term post-filter and the frontmatter-equality
post-filter compare case-insensitively for every value of the
caseSensitive flag, in both directions: any hit surviving the pipeline
contains no excluded term and contains every frontmatter key:value pair
under lower-cased comparison; and conversely a hit satisfying exactly
those lower-cased conditions (and the other engaged passes) is kept — in
particular a document whose frontmatter matches the filter only after
lower-casing is kept, and a document containing only the lower-cased
form of an excluded term is dropped, whatever the flag. -/
theorem excluded_and_frontmatter_case_insensitive :
    ∀ (q : ParsedQuery) (caseSensitive : Bool) (hits : List Hit) (h : Hit),
      (h ∈ postFilteredHits q caseSensitive hits →
        (∀ term ∈ q.excludedTerms,
          strIncludes (strLower (searchableText h.document)) (strLower term) =
            false) ∧
        (∀ kv ∈ q.frontmatter,
          strIncludes (strLower h.document.frontmatter)
            (strLower kv.1 ++ ":" ++ strLower kv.2) = true)) ∧
      (h ∈ hits →
        (∀ term ∈ q.excludedTerms,
          strIncludes (strLower (searchableText h.document)) (strLower term) =
            false) →
        (∀ kv ∈ q.frontmatter,
          strIncludes (strLower h.document.frontmatter)
            (strLower kv.1 ++ ":" ++ strLower kv.2) = true) →
        (q.paths.length > 0 → pathFilterPred q.paths h.document = true) →
        (q.phrases.length > 0 →
          phrasePred q.phrases caseSensitive h.document = true) →
        ((caseSensitive && (jsTrim q.text).length > 0) →
          csTermsPred q.text h.document = true) →
        (q.excludedTags.length > 0 →
          excludedTagsPred q.excludedTags h.document = true) →
        (q.headingTerms.length > 0 →
          headingTermsPred q.headingTerms caseSensitive h.document = true) →
        h ∈ postFilteredHits q caseSensitive hits) := by
  intro q cs hits h
  constructor
  · intro hmem
    simp only [postFilteredHits] at hmem
    constructor
    · intro term hterm
      have h6 := mem_of_condFilter hmem
      have h5 := mem_of_condFilter h6
      have h4 := mem_of_condFilter h5
      have hp := pred_of_condFilter h4
        (List.length_pos.mpr (List.ne_nil_of_mem hterm))
      simp only [excludedTermsPred, List.all_eq_true] at hp
      simpa using hp term hterm
    · intro kv hkv
      have hp := pred_of_condFilter hmem
        (List.length_pos.mpr (List.ne_nil_of_mem hkv))
      simp only [frontmatterPred, List.all_eq_true] at hp
      simpa using hp kv hkv
  · intro hin hext hfm hpa hph hcs hta hhe
    have hext2 : q.excludedTerms.length > 0 →
        excludedTermsPred q.excludedTerms h.document = true := by
      intro _
      simp only [excludedTermsPred, List.all_eq_true]
      intro term ht
      simp [hext term ht]
    have hfm2 : q.frontmatter.length > 0 →
        frontmatterPred q.frontmatter h.document = true := by
      intro _
      simp only [frontmatterPred, List.all_eq_true]
      intro kv hkv
      simpa using hfm kv hkv
    simp only [postFilteredHits]
    exact mem_condFilter_of (mem_condFilter_of (mem_condFilter_of
      (mem_condFilter_of (mem_condFilter_of (mem_condFilter_of
        (mem_condFilter_of hin hpa) hph) hcs) hext2) hta) hhe) hfm2

/-- A document containing the lower-cased form of an excluded term. -/
def c10doc : IndexableDocument :=
  { path := "b.md", title := "b", content := "bar baz", tags := [], folder := "",
    headings := [], createdAt := 0, modifiedAt := 0, frontmatter := "" }

/-- A document whose frontmatter matches `status:draft` only after
lower-casing. -/
def c10fmDoc : IndexableDocument :=
  { path := "c.md", title := "c", content := "bar baz", tags := [], folder := "",
    headings := [], createdAt := 0, modifiedAt := 0,
    frontmatter := "Status:Draft" }

/-- C10 (witness): with caseSensitive enabled, the query
`-Foo status:draft` keeps a hit whose frontmatter is `Status:Draft` —
a match that exists only under lower-casing — and every survivor avoids
the excluded term `Foo` under lower-cased comparison. -/
theorem excluded_case_insensitive_witness :
    ({ document := c10fmDoc, score := 1 } : Hit) ∈
      postFilteredHits (parseQuery "-Foo status:draft") true
        [{ document := c10fmDoc, score := 1 }] ∧
    (∀ term ∈ (parseQuery "-Foo status:draft").excludedTerms,
      strIncludes (strLower (searchableText c10fmDoc)) (strLower term) = false) ∧
    (∀ kv ∈ (parseQuery "-Foo status:draft").frontmatter,
      strIncludes (strLower c10fmDoc.frontmatter)
        (strLower kv.1 ++ ":" ++ strLower kv.2) = true) :=
  ⟨(excluded_and_frontmatter_case_insensitive (parseQuery "-Foo status:draft")
      true [{ document := c10fmDoc, score := 1 }]
      { document := c10fmDoc, score := 1 }).2
    (by decide) (by decide) (by decide) (by decide) (by decide) (by decide)
    (by decide) (by decide),
   (excluded_and_frontmatter_case_insensitive (parseQuery "-Foo status:draft")
      true [{ document := c10fmDoc, score := 1 }]
      { document := c10fmDoc, score := 1 }).1 (by decide)⟩

/-- A document in folder `workshop` whose path starts with `work`. -/
def c1BadDoc : IndexableDocument :=
  { path := "workshop/notes.md", title := "notes", content := "notes",
    tags := [], folder := "workshop", headings := [], createdAt := 0,
    modifiedAt := 0, frontmatter := "" }

/-- C1 (counterexample): for the query `path:work`, search returns a
document whose folder is `workshop`: its path `workshop/notes.md` starts
with `work`, and the post-filter also accepts a bare path prefix. -/
theorem c1_counterexample :
    ((OramaIndex.search (fun _ _ => [{ document := c1BadDoc, score := 1 }])
        OramaIndex.initState (parseQuery "path:work") 20 150 true false).map
      (fun r => r.folder)) = ["workshop"] := by decide

/-- C1 (amended): for every query whose path filters are exactly `work`,
every returned document satisfies, case-insensitively: folder equals
`work`, folder starts with `work/`, path starts with `work/`, or path
starts with `work` — so a document with folder `workshop` and path
`workshop/notes.md` is returned, the bare path-prefix disjunct accepting
it. -/
theorem path_filter_work (engine : EngineState → SearchOpts → List Hit)
    (st : OramaIndexState) (q : ParsedQuery) (limit excerptLength : Nat)
    (fuzzy caseSensitive : Bool) (r : SearchResult)
    (hq : q.paths = ["work"])
    (hr : r ∈ OramaIndex.search engine st q limit excerptLength fuzzy caseSensitive) :
    strLower r.folder = "work" ∨
    strStartsWith (strLower r.folder) "work/" = true ∨
    strStartsWith (strLower r.path) "work/" = true ∨
    strStartsWith (strLower r.path) "work" = true := by
  cases hdb : st.db with
  | none => simp [OramaIndex.search, hdb] at hr
  | some db =>
    simp only [OramaIndex.search, hdb] at hr
    rw [List.mem_map] at hr
    obtain ⟨h, hh, rfl⟩ := hr
    have hh2 : h ∈ postFilteredHits q caseSensitive
        (candidateHits engine db q limit fuzzy caseSensitive) :=
      List.mem_of_mem_take hh
    simp only [postFilteredHits] at hh2
    have h6 := mem_of_condFilter hh2
    have h5 := mem_of_condFilter h6
    have h4 := mem_of_condFilter h5
    have h3 := mem_of_condFilter h4
    have h2 := mem_of_condFilter h3
    have h1 := mem_of_condFilter h2
    have hp := pred_of_condFilter h1 (by rw [hq]; simp)
    rw [hq] at hp
    simp only [pathFilterPred, List.any_cons, List.any_nil, Bool.or_false] at hp
    have hw : strLower "work" = "work" := by decide
    simp only [hw] at hp
    simp only [mkSearchResult]
    simp only [Bool.or_eq_true, decide_eq_true_eq] at hp
    rcases hp with ((hp | hp) | hp) | hp
    · exact Or.inl hp
    · exact Or.inr (Or.inl hp)
    · exact Or.inr (Or.inr (Or.inl hp))
    · exact Or.inr (Or.inr (Or.inr hp))

/-- A document genuinely under the `work` folder. -/
def c1GoodDoc : IndexableDocument :=
  { path := "work/notes.md", title := "notes", content := "planning",
    tags := [], folder := "work", headings := [], createdAt := 0,
    modifiedAt := 0, frontmatter := "" }

/-- C1 (witness): the amended statement at a concrete engine, query and
returned result. -/
theorem path_filter_work_witness :
    strLower (mkSearchResult 150 { document := c1GoodDoc, score := 1 }).folder =
      "work" ∨
    strStartsWith (strLower (mkSearchResult 150
      { document := c1GoodDoc, score := 1 }).folder) "work/" = true ∨
    strStartsWith (strLower (mkSearchResult 150
      { document := c1GoodDoc, score := 1 }).path) "work/" = true ∨
    strStartsWith (strLower (mkSearchResult 150
      { document := c1GoodDoc, score := 1 }).path) "work" = true :=
  path_filter_work (fun _ _ => [{ document := c1GoodDoc, score := 1 }])
    OramaIndex.initState (parseQuery "path:work") 20 150 true false
    (mkSearchResult 150 { document := c1GoodDoc, score := 1 })
    (by decide) (by decide)

/-- C5: the engine call uses tolerance 1 exactly when fuzzy is enabled,
no phrases are present and the search term is longer than 4 characters;
a fuzzy call returning zero hits is retried exactly once with tolerance
0; hence when the tolerance-0 call has hits the candidate list is never
empty because of fuzzing. -/
theorem fuzzy_policy (engine : EngineState → SearchOpts → List Hit)
    (db : EngineState) (q : ParsedQuery) (limit : Nat) (fuzzy caseSensitive : Bool) :
    (useFuzzy q fuzzy = true ↔
      (fuzzy = true ∧ q.phrases = [] ∧ (effSearchTerm q).length > 4)) ∧
    (useFuzzy q fuzzy = true →
      candidateHits engine db q limit fuzzy caseSensitive =
        (if (engine db { searchOptsOf q limit caseSensitive with
              tolerance := 1 }).isEmpty
         then engine db { searchOptsOf q limit caseSensitive with tolerance := 0 }
         else engine db { searchOptsOf q limit caseSensitive with
              tolerance := 1 })) ∧
    (useFuzzy q fuzzy = false →
      candidateHits engine db q limit fuzzy caseSensitive =
        engine db { searchOptsOf q limit caseSensitive with tolerance := 0 }) ∧
    (candidateHits engine db q limit fuzzy caseSensitive = [] →
      engine db { searchOptsOf q limit caseSensitive with tolerance := 0 } = []) := by
  refine ⟨?_, ?_, ?_, ?_⟩
  · simp only [useFuzzy, Bool.and_eq_true, Bool.not_eq_true', decide_eq_false_iff_not,
      decide_eq_true_eq, not_lt, Nat.le_zero, List.length_eq_zero, and_assoc]
  · intro huf
    simp only [candidateHits, huf, if_true, Bool.and_true]
  · intro huf
    simp only [candidateHits, huf, if_false, Bool.and_false, Bool.false_eq_true]
  · intro hempty
    by_cases huf : useFuzzy q fuzzy = true
    · simp only [candidateHits, huf, if_true, Bool.and_true] at hempty
      by_cases he : (engine db { searchOptsOf q limit caseSensitive with
          tolerance := 1 }).isEmpty
      · rw [if_pos he] at hempty
        exact hempty
      · rw [if_neg he] at hempty
        exact absurd (by rw [hempty]; rfl) he
    · rw [Bool.not_eq_true] at huf
      simp only [candidateHits, huf, if_false, Bool.and_false, Bool.false_eq_true] at hempty
      simpa using hempty

/-- A document matched only by the exact (tolerance 0) engine call. -/
def c5doc : IndexableDocument :=
  { path := "p.md", title := "p", content := "planning", tags := [],
    folder := "", headings := [], createdAt := 0, modifiedAt := 0,
    frontmatter := "" }

/-- C5 (witness): a fuzzy-eligible query whose tolerance-1 call returns
nothing is answered from the tolerance-0 retry. -/
theorem fuzzy_policy_witness :
    candidateHits
      (fun _ opts => if opts.tolerance = 0 then [{ document := c5doc, score := 1 }]
        else [])
      { docs := [], nextId := 0 } (parseQuery "planning") 20 true false =
      [{ document := c5doc, score := 1 }] :=
  ((fuzzy_policy
      (fun _ opts => if opts.tolerance = 0 then [{ document := c5doc, score := 1 }]
        else [])
      { docs := [], nextId := 0 } (parseQuery "planning") 20 true false).2.1
    (by decide)).trans (by decide)

theorem syncRun_append (ix : VFile → Option IndexableDocument) (s : SyncState)
    (as bs : List SyncAction) :
    syncRun ix s (as ++ bs) = syncRun ix (syncRun ix s as) bs :=
  List.foldl_append _ _ _ _

theorem runTicks_no_fire (ix : VFile → Option IndexableDocument) :
    ∀ (g n : Nat) (P : List (String × VFile)) (L : List SyncEffect), g ≤ n →
      syncRun ix { pending := P, timer := some n, log := L }
          (List.replicate g .tick) =
        { pending := P, timer := some (n - g), log := L } := by
  intro g
  induction g with
  | zero => intro n P L _; simp [syncRun]
  | succ g ih =>
    intro n P L hg
    cases n with
    | zero => omega
    | succ m =>
      rw [List.replicate_succ]
      have hstep : syncStep ix { pending := P, timer := some (m + 1), log := L }
          .tick = { pending := P, timer := some m, log := L } := rfl
      show syncRun ix _ (.tick :: List.replicate g .tick) = _
      rw [show syncRun ix { pending := P, timer := some (m + 1), log := L }
          (.tick :: List.replicate g .tick) =
        syncRun ix { pending := P, timer := some m, log := L }
          (List.replicate g .tick) from by
          simp only [syncRun, List.foldl_cons, hstep]]
      rw [ih m P L (by omega)]
      simp [Nat.succ_sub_succ]

theorem runTicks_none (ix : VFile → Option IndexableDocument) :
    ∀ (k : Nat) (P : List (String × VFile)) (L : List SyncEffect),
      syncRun ix { pending := P, timer := none, log := L }
          (List.replicate k .tick) =
        { pending := P, timer := none, log := L } := by
  intro k
  induction k with
  | zero => intro P L; simp [syncRun]
  | succ k ih =>
    intro P L
    rw [List.replicate_succ]
    have hstep : syncStep ix { pending := P, timer := none, log := L } .tick =
        { pending := P, timer := none, log := L } := rfl
    show syncRun ix _ (.tick :: List.replicate k .tick) = _
    simp only [syncRun, List.foldl_cons, hstep]
    exact ih P L

theorem runTicks_fire (ix : VFile → Option IndexableDocument)
    (r : Nat) (P : List (String × VFile)) (L : List SyncEffect)
    (hr : r ≤ DEBOUNCE_MS.fileChange) :
    syncRun ix { pending := P, timer := some r, log := L }
        (List.replicate (DEBOUNCE_MS.fileChange + 1) .tick) =
      { pending := [], timer := none, log := L ++ flushLog ix P } := by
  have hsplit : DEBOUNCE_MS.fileChange + 1 =
      r + ((DEBOUNCE_MS.fileChange - r) + 1) := by omega
  rw [hsplit, List.replicate_add, syncRun_append,
    runTicks_no_fire ix r r P L (le_refl r)]
  rw [List.replicate_succ]
  have hstep : syncStep ix { pending := P, timer := some (r - r), log := L }
      .tick = { pending := [], timer := none, log := L ++ flushLog ix P } := by
    simp only [Nat.sub_self]
    rfl
  show syncRun ix _ (.tick :: List.replicate _ .tick) = _
  simp only [syncRun, List.foldl_cons, hstep]
  exact runTicks_none ix _ _ _

theorem step_modify_md (ix : VFile → Option IndexableDocument)
    (s : SyncState) (p : String) (fr : Nat) :
    syncStep ix s (.modify { path := p, ext := "md", ref := fr }) =
      { pending := alSet s.pending p { path := p, ext := "md", ref := fr },
        timer := some DEBOUNCE_MS.fileChange, log := s.log } := by
  simp [syncStep]

theorem eventPhase (ix : VFile → Option IndexableDocument) (p : String) :
    ∀ (evs : List (Nat × Nat)), evs ≠ [] →
      (∀ e ∈ evs, e.2 ≤ DEBOUNCE_MS.fileChange) →
      ∀ (P : List (String × VFile)) (t0 : Option Nat) (L : List SyncEffect),
      ∃ r ≤ DEBOUNCE_MS.fileChange,
        syncRun ix { pending := P, timer := t0, log := L }
            ((evs.map (fun e =>
              SyncAction.modify { path := p, ext := "md", ref := e.1 } ::
                List.replicate e.2 .tick)).flatten) =
          { pending := evs.foldl
              (fun Pc e => alSet Pc p { path := p, ext := "md", ref := e.1 }) P,
            timer := some (DEBOUNCE_MS.fileChange -
              ((evs.map Prod.snd).getLast?.getD 0)),
            log := L } := by
  intro evs
  induction evs with
  | nil => intro h; exact absurd rfl h
  | cons e rest ih =>
    intro _ hg P t0 L
    rw [List.map_cons, List.flatten_cons]
    rw [show (SyncAction.modify { path := p, ext := "md", ref := e.1 } ::
        List.replicate e.2 .tick) ++
        (rest.map (fun e => SyncAction.modify { path := p, ext := "md", ref := e.1 } ::
          List.replicate e.2 .tick)).flatten =
      SyncAction.modify { path := p, ext := "md", ref := e.1 } ::
        (List.replicate e.2 .tick ++
          (rest.map (fun e => SyncAction.modify { path := p, ext := "md", ref := e.1 } ::
            List.replicate e.2 .tick)).flatten) from by simp]
    show ∃ r ≤ DEBOUNCE_MS.fileChange, syncRun ix _ (_ :: _) = _
    rw [show syncRun ix { pending := P, timer := t0, log := L }
        (SyncAction.modify { path := p, ext := "md", ref := e.1 } ::
          (List.replicate e.2 .tick ++
            (rest.map (fun e => SyncAction.modify { path := p, ext := "md", ref := e.1 } ::
              List.replicate e.2 .tick)).flatten)) =
      syncRun ix (syncStep ix { pending := P, timer := t0, log := L }
          (.modify { path := p, ext := "md", ref := e.1 }))
        (List.replicate e.2 .tick ++
          (rest.map (fun e => SyncAction.modify { path := p, ext := "md", ref := e.1 } ::
            List.replicate e.2 .tick)).flatten) from rfl]
    rw [step_modify_md, syncRun_append,
      runTicks_no_fire ix e.2 DEBOUNCE_MS.fileChange _ _ (hg e (by simp))]
    cases hrest : rest with
    | nil =>
      refine ⟨DEBOUNCE_MS.fileChange - e.2, by omega, ?_⟩
      subst hrest
      simp [syncRun, List.foldl_cons, List.foldl_nil]
    | cons e2 rest2 =>
      obtain ⟨r, hr, hrun⟩ := ih (by simp [hrest]) (fun x hx => hg x (by simp [hx]))
        (alSet P p { path := p, ext := "md", ref := e.1 })
        (some (DEBOUNCE_MS.fileChange - e.2)) L
      subst hrest
      refine ⟨r, hr, ?_⟩
      rw [hrun]
      simp [List.getLast_cons]

theorem foldl_alSet_single (p : String) :
    ∀ (evs : List (Nat × Nat)) (f0 : VFile),
      evs.foldl (fun Pc e => alSet Pc p { path := p, ext := "md", ref := e.1 })
          [(p, f0)] =
        [(p, (evs.map (fun e =>
          ({ path := p, ext := "md", ref := e.1 } : VFile))).getLast?.getD f0)] := by
  intro evs
  induction evs with
  | nil => intro f0; simp
  | cons e rest ih =>
    intro f0
    rw [List.foldl_cons]
    rw [show alSet [(p, f0)] p { path := p, ext := "md", ref := e.1 } =
      [(p, ({ path := p, ext := "md", ref := e.1 } : VFile))] from by simp [alSet]]
    rw [ih]
    cases rest with
    | nil => simp
    | cons e2 rest2 =>
      simp only [List.map_cons, List.getLast?_cons_cons]
      cases h : ({ path := p, ext := "md", ref := e2.1 } ::
          List.map (fun e => ({ path := p, ext := "md", ref := e.1 } : VFile))
            rest2).getLast? with
      | none => simp at h
      | some x => simp

/-- C2: starting from an idle sync manager, any batch of `N ≥ 1` modify
events for path `p` (each gap within the debounce window) followed by a
full quiet window produces exactly the log
`[extract p lastRef, upsert, notify]`: one extraction of the last queued
file reference, one index upsert, and one change notification for the
whole batch; the pending map is empty afterwards. -/
theorem debounce_coalescing (ix : VFile → Option IndexableDocument)
    (p : String) (evs : List (Nat × Nat)) (fr : Nat) (d : IndexableDocument)
    (hg : ∀ e ∈ evs, e.2 ≤ DEBOUNCE_MS.fileChange)
    (hlast : (evs.map Prod.fst).getLast? = some fr)
    (hix : ix { path := p, ext := "md", ref := fr } = some d) :
    (syncRun ix initSync (modifyTrace p evs)).log =
      [.extract p fr, .upsertDoc d.path, .notify] ∧
    (syncRun ix initSync (modifyTrace p evs)).pending = [] := by
  have hne : evs ≠ [] := by
    intro h
    rw [h] at hlast
    simp at hlast
  obtain ⟨r, hr, hphase⟩ :=
    eventPhase ix p evs hne hg [] none []
  have hpend : evs.foldl
      (fun Pc e => alSet Pc p { path := p, ext := "md", ref := e.1 }) [] =
      [(p, ({ path := p, ext := "md", ref := fr } : VFile))] := by
    cases evs with
    | nil => exact absurd rfl hne
    | cons e rest =>
      rw [List.foldl_cons]
      rw [show alSet ([] : List (String × VFile)) p
          { path := p, ext := "md", ref := e.1 } =
        [(p, ({ path := p, ext := "md", ref := e.1 } : VFile))] from rfl]
      rw [foldl_alSet_single, List.getLast?_map]
      cases hrl : rest.getLast? with
      | none =>
        have hrestnil : rest = [] := by
          cases rest with
          | nil => rfl
          | cons e2 r2 => simp at hrl
        subst hrestnil
        have he : e.1 = fr := by simpa using hlast
        simp [he]
      | some el =>
        have hlast2 : el.1 = fr := by
          cases rest with
          | nil => simp at hrl
          | cons e2 r2 =>
            rw [List.map_cons, List.map_cons, List.getLast?_cons_cons] at hlast
            rw [show (e2.1 :: List.map Prod.fst r2) =
              List.map Prod.fst (e2 :: r2) from rfl] at hlast
            rw [List.getLast?_map, hrl] at hlast
            simpa using hlast
        simp [hlast2]
  rw [show initSync = ({ pending := [], timer := none, log := [] } : SyncState)
    from rfl]
  rw [modifyTrace, syncRun_append, hphase, hpend]
  rw [runTicks_fire ix _ _ _ (by omega)]
  simp [flushLog, hix]

/-- A document produced by extraction of `p.md`. -/
def c2doc : IndexableDocument :=
  { path := "p.md", title := "p", content := "note body", tags := [],
    folder := "", headings := [], createdAt := 0, modifiedAt := 0,
    frontmatter := "" }

/-- A concrete extractor succeeding exactly on `p.md`. -/
def c2extract : VFile → Option IndexableDocument :=
  fun f => if f.path = "p.md" then some c2doc else none

/-- C2 (witness): two modify events for `p.md` inside one debounce window
coalesce into one extraction of the last reference, one upsert and one
notification. -/
theorem debounce_coalescing_witness :
    (syncRun c2extract initSync (modifyTrace "p.md" [(5, 3), (7, 0)])).log =
      [.extract "p.md" 7, .upsertDoc c2doc.path, .notify] ∧
    (syncRun c2extract initSync (modifyTrace "p.md" [(5, 3), (7, 0)])).pending =
      [] :=
  debounce_coalescing c2extract "p.md" [(5, 3), (7, 0)] 7 c2doc
    (by decide) (by decide) (by decide)

theorem syncRun_cons (ix : VFile → Option IndexableDocument) (s : SyncState)
    (a : SyncAction) (as : List SyncAction) :
    syncRun ix s (a :: as) = syncRun ix (syncStep ix s a) as := rfl

theorem alGet_alDel_self [DecidableEq κ] {m : List (κ × α)} {p : κ}
    (hk : (m.map Prod.fst).Nodup) : alGet (alDel m p) p = none := by
  rw [alGet_eq_none_iff]
  intro hmem
  rw [List.mem_map] at hmem
  obtain ⟨x, hx, rfl⟩ := hmem
  exact (mem_alDel_of_nodup hk hx).2 rfl

theorem syncRun_ticks_log_ext (ix : VFile → Option IndexableDocument) :
    ∀ (k : Nat) (t : SyncState), ∃ ext,
      (syncRun ix t (List.replicate k .tick)).log = t.log ++ ext := by
  intro k
  induction k with
  | zero => intro t; exact ⟨[], by simp [syncRun]⟩
  | succ k ih =>
    intro t
    rw [List.replicate_succ, syncRun_cons]
    cases ht : t.timer with
    | none =>
      have hstep : syncStep ix t .tick = t := by simp [syncStep, ht]
      rw [hstep]
      exact ih t
    | some n =>
      cases n with
      | zero =>
        have hstep : syncStep ix t .tick =
            { pending := [], timer := none,
              log := t.log ++ flushLog ix t.pending } := by simp [syncStep, ht]
        rw [hstep]
        obtain ⟨ext, hext⟩ := ih ⟨[], none, t.log ++ flushLog ix t.pending⟩
        exact ⟨flushLog ix t.pending ++ ext, by rw [hext]; simp⟩
      | succ n =>
        have hstep : syncStep ix t .tick =
            { pending := t.pending, timer := some n, log := t.log } := by
          simp [syncStep, ht]
        rw [hstep]
        exact ih _

theorem ticks_no_extract (ix : VFile → Option IndexableDocument) (pp : String) :
    ∀ (k : Nat) (t : SyncState), (∀ e ∈ t.pending, e.2.path ≠ pp) → ∀ rf : Nat,
      SyncEffect.extract pp rf ∉
        ((syncRun ix t (List.replicate k .tick)).log.drop t.log.length) := by
  intro k
  induction k with
  | zero =>
    intro t hnk rf
    simp [syncRun, List.drop_length]
  | succ k ih =>
    intro t hnk rf
    rw [List.replicate_succ, syncRun_cons]
    cases ht : t.timer with
    | none =>
      have hstep : syncStep ix t .tick = t := by simp [syncStep, ht]
      rw [hstep]
      exact ih t hnk rf
    | some n =>
      cases n with
      | zero =>
        have hstep : syncStep ix t .tick =
            { pending := [], timer := none,
              log := t.log ++ flushLog ix t.pending } := by simp [syncStep, ht]
        rw [hstep]
        obtain ⟨ext, hext⟩ := syncRun_ticks_log_ext ix k
          ⟨[], none, t.log ++ flushLog ix t.pending⟩
        rw [hext, List.append_assoc, List.drop_left]
        intro hmem
        rw [List.mem_append] at hmem
        rcases hmem with hmem | hmem
        · simp only [flushLog, List.mem_append, List.mem_flatten, List.mem_map] at hmem
          rcases hmem with ⟨l, ⟨e, he, rfl⟩, hml⟩ | hmem
          · rcases List.mem_cons.mp hml with h1 | h1
            · injection h1 with h2 h3
              exact hnk e he h2.symm
            · cases hx : ix e.2 with
              | none => rw [hx] at h1; simp at h1
              | some d => rw [hx] at h1; simp at h1
          · split at hmem <;> simp at hmem
        · have := ih ⟨[], none, t.log ++ flushLog ix t.pending⟩ (by simp) rf
          rw [hext, List.drop_left] at this
          exact this hmem
      | succ n =>
        have hstep : syncStep ix t .tick =
            { pending := t.pending, timer := some n, log := t.log } := by
          simp [syncStep, ht]
        rw [hstep]
        exact ih ⟨t.pending, some n, t.log⟩ hnk rf

/-- C6: a delete event bypasses the debounce: the step itself appends an
immediate index removal and an immediate change notification, the path's
pending entry is removed (cancelling any queued re-index), and no
subsequent passage of time ever extracts that path again. -/
theorem delete_bypasses_debounce (ix : VFile → Option IndexableDocument)
    (s : SyncState) (f : VFile)
    (hwf : ∀ e ∈ s.pending, e.2.path = e.1)
    (hnd : (s.pending.map Prod.fst).Nodup) :
    (syncStep ix s (.deleteFile f)).log =
      s.log ++ [.removeDoc f.path, .notify] ∧
    alGet (syncStep ix s (.deleteFile f)).pending f.path = none ∧
    (∀ (k rf : Nat),
      SyncEffect.extract f.path rf ∉
        ((syncRun ix (syncStep ix s (.deleteFile f))
            (List.replicate k .tick)).log.drop
          (syncStep ix s (.deleteFile f)).log.length)) := by
  refine ⟨rfl, ?_, ?_⟩
  · exact alGet_alDel_self hnd
  · intro k rf
    refine ticks_no_extract ix f.path k _ ?_ rf
    intro e he
    obtain ⟨he1, he2⟩ := mem_alDel_of_nodup hnd he
    rw [hwf e he1]
    exact he2

/-- A pending state with one queued path. -/
def c6state : SyncState :=
  { pending := [("q.md", { path := "q.md", ext := "md", ref := 3 })],
    timer := some 10, log := [] }

/-- C6 (witness): deleting the queued path applies immediately and no
flush within the next three windows re-extracts it. -/
theorem delete_bypasses_debounce_witness :
    (syncStep (fun _ => none) c6state
        (.deleteFile { path := "q.md", ext := "md", ref := 4 })).log =
      c6state.log ++ [.removeDoc "q.md", .notify] ∧
    alGet (syncStep (fun _ => none) c6state
        (.deleteFile { path := "q.md", ext := "md", ref := 4 })).pending
      "q.md" = none ∧
    SyncEffect.extract "q.md" 3 ∉
      ((syncRun (fun _ => none)
          (syncStep (fun _ => none) c6state
            (.deleteFile { path := "q.md", ext := "md", ref := 4 }))
          (List.replicate 6000 .tick)).log.drop
        (syncStep (fun _ => none) c6state
          (.deleteFile { path := "q.md", ext := "md", ref := 4 })).log.length) :=
  ⟨(delete_bypasses_debounce (fun _ => none) c6state
      { path := "q.md", ext := "md", ref := 4 } (by decide) (by decide)).1,
   (delete_bypasses_debounce (fun _ => none) c6state
      { path := "q.md", ext := "md", ref := 4 } (by decide) (by decide)).2.1,
   (delete_bypasses_debounce (fun _ => none) c6state
      { path := "q.md", ext := "md", ref := 4 } (by decide) (by decide)).2.2 6000 3⟩

/-- C7 (witness): a timestamp inside the day satisfies the built clause. -/
theorem created_on_day_witness :
    whereMatches (buildWhereClause (parseQuery "created:2024-01-01"))
      (c7doc 1704100000000) = true :=
  (created_on_day_boundary.1 (parseQuery "created:2024-01-01") "2024-01-01"
    1704067200000 (c7doc 1704100000000) (by decide) (by decide) (by decide)).mpr
    (by decide)
